import Mathlib

/-!
Verification development for the NodeNest workflow execution engine.

The definitions below are a shallow embedding of the TypeScript sources:
  * `src/lib/dag.ts`                — cycle detection, graph building, readiness,
                                      input collection,
  * `src/lib/workflowExecutor.ts`   — the wave scheduler, input assembly and
                                      run finalisation,
  * `src/lib/workflowValidation.ts` — DAG validation (dangling-edge checks).

Modelling conventions:
  * JavaScript values flowing between nodes are modelled by `Value`; numbers are
    modelled as integers (every value appearing in the verified properties is
    integral), and `parseFloat` is modelled on integer-literal strings.
  * JavaScript objects / `Map`s are modelled as association lists with
    `Map.set` / property-assignment semantics (`alSet`), preserving insertion
    order exactly as JS does.
  * The recursive DFS of `detectCycles` is modelled with a fuel parameter; the
    fuel chosen by `detectCycles` (`nodes.length + edges.length + 1`) strictly
    dominates the recursion depth, which is proved where needed.
  * The wave loop of `executeWorkflow` dispatches each wave concurrently in JS,
    but every node of a wave reads only the statuses/outputs of nodes completed
    in earlier waves (its dependencies), never of its wave siblings, so the
    wave is modelled as a left fold over the ready list.  External node
    handlers (Trigger.dev tasks, pass-through nodes) are the abstract
    parameter `Handler`; a handler exception is the same as a structured
    failure, exactly as in `executeNode`.
-/

namespace NodeNest

/-- JSON-like runtime values flowing between workflow nodes. -/
inductive Value where
  | str (s : String)
  | num (n : Int)
  | bool (b : Bool)
  | null
  | arr (vs : List Value)

/-- JavaScript truthiness of a `Value`. -/
def Value.truthy : Value → Bool
  | .str s => if s = "" then false else true
  | .num n => if n = 0 then false else true
  | .bool b => b
  | .null => false
  | .arr _ => true

/-- Truthiness of an optional value (`undefined` is falsy). -/
def truthyO : Option Value → Bool
  | some v => v.truthy
  | none => false

/-- A JavaScript object / `Map` with string keys, as an association list. -/
abbrev RecordV := List (String × Value)

/-- `Map.set` / property assignment: replace the binding in place, else append. -/
def alSet {α : Type} : List (String × α) → String → α → List (String × α)
  | [], k, v => [(k, v)]
  | p :: r, k, v => if p.1 = k then (k, v) :: r else p :: alSet r k v

/-- `Map.get` / property read: first binding of the key. -/
def alGet {α : Type} : List (String × α) → String → Option α
  | [], _ => none
  | p :: r, k => if p.1 = k then some p.2 else alGet r k

/-- Object spread `{...a, ...b}` restricted to what lookups observe:
assign every binding of `b` over `a`, in order. -/
def mergeR (a b : RecordV) : RecordV :=
  b.foldl (fun acc p => alSet acc p.1 p.2) a

/-- A workflow node (`Node` in `dag.ts`). -/
structure Node where
  id : String
  type : String
  data : RecordV

/-- A workflow edge (`Edge` in `dag.ts`). -/
structure Edge where
  id : String
  source : String
  target : String
  sourceHandle : Option String
  targetHandle : Option String

/-- Per-run node status (`ExecutionNode.status` in `dag.ts`; the engine only
ever assigns `pending`, `running`, `completed` and `failed`). -/
inductive Status where
  | pending
  | running
  | completed
  | failed
deriving DecidableEq, Repr

/-- Runtime wrapper of a node (`ExecutionNode` in `dag.ts`). -/
structure ExecutionNode where
  node : Node
  dependencies : List String
  dependents : List String
  status : Status
  inputs : RecordV
  output : Option Value
  error : Option String

/-- The mutable execution graph: `Map<string, ExecutionNode>`. -/
abbrev ExecGraph := List (String × ExecutionNode)

/-- One directed step of the edge relation: some edge goes from `x` to `y`. -/
def EStep (edges : List Edge) (x y : String) : Prop :=
  ∃ e ∈ edges, e.source = x ∧ e.target = y

instance (edges : List Edge) (x y : String) : Decidable (EStep edges x y) :=
  inferInstanceAs (Decidable (∃ e ∈ edges, e.source = x ∧ e.target = y))

/-- The adjacency list built by `detectCycles`: successors of `x`, in edge
order (`graph.get(edge.source).push(edge.target)`). -/
def adjOf (edges : List Edge) (x : String) : List String :=
  (edges.filter (fun e => decide (e.source = x))).map (fun e => e.target)

/-- The mutable DFS state of `detectCycles`: the `visited` set, the
`recStack` set and the shared `cycle` path array. -/
structure DfsSt where
  visited : List String
  recStack : List String
  cycle : List String

/-- Entry bookkeeping of `dfs(nodeId)`: `visited.add`, `recStack.add`,
`cycle.push`. -/
def pushSt (u : String) (s : DfsSt) : DfsSt :=
  ⟨u :: s.visited, u :: s.recStack, s.cycle ++ [u]⟩

/-- `Set.delete` on a list holding each element at most once. -/
def removeFirst : List String → String → List String
  | [], _ => []
  | x :: xs, a => if x = a then xs else x :: removeFirst xs a

/-- Exit bookkeeping of `dfs(nodeId)`: `recStack.delete`, `cycle.pop`. -/
def popSt (u : String) (s : DfsSt) : DfsSt :=
  ⟨s.visited, removeFirst s.recStack u, s.cycle.dropLast⟩

/-- The recursive `dfs` helper of `detectCycles` (`dag.ts`), with a fuel
parameter bounding the recursion depth; the fuel used by `detectCycles` is
proved sufficient where the fuel-exhaustion branch matters.  The neighbor
loop is the left fold, short-circuiting once a cycle is found. -/
def dfsVisit (adj : String → List String) : Nat → String → DfsSt → Bool × DfsSt
  | 0, _, s => (false, s)
  | fuel + 1, u, s =>
    let r := (adj u).foldl (fun acc v =>
      if acc.1 then acc
      else if v ∈ acc.2.visited then
        if v ∈ acc.2.recStack then
          (true, ⟨acc.2.visited, acc.2.recStack, acc.2.cycle ++ [v]⟩)
        else acc
      else dfsVisit adj fuel v acc.2) (false, pushSt u s)
    if r.1 then r else (false, popSt u r.2)

/-- The body of the neighbor loop of `dfs`, as a named step function. -/
def dfsStep (adj : String → List String) (fuel : Nat) (acc : Bool × DfsSt)
    (v : String) : Bool × DfsSt :=
  if acc.1 then acc
  else if v ∈ acc.2.visited then
    if v ∈ acc.2.recStack then
      (true, ⟨acc.2.visited, acc.2.recStack, acc.2.cycle ++ [v]⟩)
    else acc
  else dfsVisit adj fuel v acc.2

/-- The outer loop of `detectCycles`: run `dfs` from every unvisited node,
returning the cycle path as soon as one DFS reports a cycle. -/
def detectCyclesGo (adj : String → List String) (fuel : Nat) :
    List Node → DfsSt → Option (List String)
  | [], _ => none
  | n :: ns, s =>
    if n.id ∈ s.visited then detectCyclesGo adj fuel ns s
    else
      let r := dfsVisit adj fuel n.id s
      if r.1 then some r.2.cycle else detectCyclesGo adj fuel ns r.2

/-- `detectCycles` from `dag.ts`: DFS cycle detection returning the recorded
path, or `null`. -/
def detectCycles (nodes : List Node) (edges : List Edge) : Option (List String) :=
  detectCyclesGo (adjOf edges) (nodes.length + edges.length + 1) nodes ⟨[], [], []⟩

/-- The fresh `ExecutionNode` made for each node by `buildExecutionGraph`. -/
def initExecNode (n : Node) : ExecutionNode :=
  ⟨n, [], [], .pending, [], none, none⟩

/-- Second half of the per-edge update of `buildExecutionGraph`: push
`edge.target` onto the (re-fetched) source node's `dependents` if absent. -/
def addDependent (e : Edge) (g1 : ExecGraph) : ExecGraph :=
  match alGet g1 e.source with
  | some sn =>
    if e.target ∈ sn.dependents then g1
    else alSet g1 e.source { sn with dependents := sn.dependents ++ [e.target] }
  | none => g1

/-- The per-edge dependency update of `buildExecutionGraph`: when both
endpoints are present, record `source` in `target.dependencies` and `target`
in `source.dependents`, each only if not already present. -/
def addEdgeDeps (g : ExecGraph) (e : Edge) : ExecGraph :=
  match alGet g e.source, alGet g e.target with
  | some _, some tn =>
    addDependent e (if e.source ∈ tn.dependencies then g
      else alSet g e.target { tn with dependencies := tn.dependencies ++ [e.source] })
  | _, _ => g

/-- `buildExecutionGraph` from `dag.ts`. -/
def buildExecutionGraph (nodes : List Node) (edges : List Edge) : ExecGraph :=
  edges.foldl addEdgeDeps
    (nodes.foldl (fun g n => alSet g n.id (initExecNode n)) [])

/-- One dependency check of `getReadyNodes` (`dag.ts`):
`executionNodes.get(depId)?.status === "completed"`. -/
def depCompleted (g : ExecGraph) (d : String) : Bool :=
  decide ((alGet g d).map ExecutionNode.status = some Status.completed)

/-- `getReadyNodes` from `dag.ts`: the pending nodes all of whose dependencies
have status `completed` (a `failed` dependency does NOT count), in map order. -/
def getReadyNodes (g : ExecGraph) : List (String × ExecutionNode) :=
  g.filter (fun p => decide (p.2.status = Status.pending) &&
    p.2.dependencies.all (depCompleted g))

/-- `getReadyNodes` from the legacy DAG module (`src/unnamed/part_001`),
where a dependency counts as resolved when `completed` OR `failed`.  Kept for
comparison with the current `dag.ts` policy; the live executor imports the
`dag.ts` version. -/
def legacyGetReadyNodes (g : ExecGraph) : List (String × ExecutionNode) :=
  g.filter (fun p => decide (p.2.status = Status.pending) &&
    p.2.dependencies.all (fun d =>
      decide ((alGet g d).map ExecutionNode.status = some Status.completed) ||
      decide ((alGet g d).map ExecutionNode.status = some Status.failed)))

/-- JavaScript `x || "default"` on an optional handle string. -/
def strOr (o : Option String) (d : String) : String :=
  match o with
  | some s => if s = "" then d else s
  | none => d

/-- Numeric value of a digit string (most significant first). -/
def natOfDigits (cs : List Char) : Nat :=
  cs.foldl (fun a c => a * 10 + (c.toNat - 48)) 0

/-- The leading digit run of a character list. -/
def digitPrefix (cs : List Char) : List Char :=
  cs.takeWhile (fun c => c.isDigit)

/-- `parseFloat` on a string, restricted to the integer modelling of numbers:
the longest (optionally `-`-signed) digit prefix, `NaN` (`none`) when there is
none.  Fractional parts are outside the integral value model. -/
def parseIntPrefix (s : String) : Option Int :=
  match s.data with
  | '-' :: cs =>
    if digitPrefix cs = [] then none else some (-(natOfDigits (digitPrefix cs) : Int))
  | cs =>
    if digitPrefix cs = [] then none else some ((natOfDigits (digitPrefix cs) : Int))

/-- `parseFloat(v) || d`, with numbers modelled as integers: a value parsing
to a nonzero integer wins, anything else (including `0` and `NaN`) yields the
default. -/
def parseFloatOr (v : Value) (d : Int) : Value :=
  let p : Option Int :=
    match v with
    | .num n => some n
    | .str s => parseIntPrefix s
    | _ => none
  match p with
  | some n => if n = 0 then .num d else .num n
  | none => .num d

/-- `if (!inputs.images) inputs.images = []; inputs.images.push(out)`.
Only array values are ever stored under `images` by the collector. -/
def pushImage (inputs : RecordV) (out : Value) : RecordV :=
  let cur := match alGet inputs ("images") with
    | some (.arr l) => l
    | _ => []
  alSet inputs ("images") (.arr (cur ++ [out]))

/-- One incoming edge step of `collectNodeInputs` (`dag.ts`): a contribution
happens only when the source node exists, is `completed`, and its output is
truthy; the target-handle routing is per node type. -/
def collectStep (g : ExecGraph) (ty : Option String) (inputs : RecordV)
    (e : Edge) : RecordV :=
  match alGet g e.source with
  | none => inputs
  | some sn =>
    match sn.output with
    | none => inputs
    | some out =>
      if sn.status = Status.completed ∧ out.truthy = true then
        let tH := strOr e.targetHandle ("default")
        let sH := strOr e.sourceHandle ("output")
        if ty = some ("llm") then
          if tH = "system_prompt" then alSet inputs ("systemPrompt") out
          else if tH = "user_message" then alSet inputs ("userPrompt") out
          else if tH.startsWith ("images-") then pushImage inputs out
          else inputs
        else if ty = some ("crop") then
          if tH = "image_url" then alSet inputs ("imageUrl") out
          else if tH = "x_percent" then alSet inputs ("xPercent") (parseFloatOr out 0)
          else if tH = "y_percent" then alSet inputs ("yPercent") (parseFloatOr out 0)
          else if tH = "width_percent" then alSet inputs ("widthPercent") (parseFloatOr out 100)
          else if tH = "height_percent" then alSet inputs ("heightPercent") (parseFloatOr out 100)
          else inputs
        else if ty = some ("extractFrame") then
          if tH = "video_url" then alSet inputs ("videoUrl") out
          else if tH = "timestamp" then alSet inputs ("timestamp") out
          else inputs
        else
          if sH = "output" then
            if tH = "prompt" ∨ tH = "user_message" then alSet inputs ("userPrompt") out
            else alSet inputs tH out
          else if sH = "image-output" ∨ tH.startsWith ("image-") ∨ tH.startsWith ("images-") then
            pushImage inputs out
          else alSet inputs tH out
      else inputs

/-- `collectNodeInputs` from `dag.ts`: fold the per-edge step over the edges
targeting the node, in list order. -/
def collectNodeInputs (nodeId : String) (g : ExecGraph) (edges : List Edge)
    (ty : Option String) : RecordV :=
  (edges.filter (fun e => decide (e.target = nodeId))).foldl (collectStep g ty) []

/-- `!inputs.k` — the key is absent or bound to a falsy value. -/
def falsyAt (r : RecordV) (k : String) : Bool :=
  match alGet r k with
  | some v => !v.truthy
  | none => true

/-- `data.k !== undefined` — the key is present. -/
def presentAt (r : RecordV) (k : String) : Bool :=
  (alGet r k).isSome

/-- `data.k` is present and truthy. -/
def truthyAt (r : RecordV) (k : String) : Bool :=
  match alGet r k with
  | some v => v.truthy
  | none => false

/-- One statement of the executor's type-specific input fix-ups:
`if (!inputs[dstK] && <data[srcK] present/truthy>) nodeInputs[dstK] = data[srcK]`. -/
def fixStep (inputs acc dataR : RecordV) (srcK dstK : String)
    (needTruthy : Bool) : RecordV :=
  if falsyAt inputs dstK &&
      (if needTruthy then truthyAt dataR srcK else presentAt dataR srcK) then
    match alGet dataR srcK with
    | some v => alSet acc dstK v
    | none => acc
  else acc

/-- The crop-node fix-ups of `executeWorkflow` (`workflowExecutor.ts`
lines 276–293). -/
def cropFix (dataR inputs acc : RecordV) : RecordV :=
  let a1 := fixStep inputs acc dataR ("xPercent") ("xPercent") false
  let a2 := fixStep inputs a1 dataR ("yPercent") ("yPercent") false
  let a3 := fixStep inputs a2 dataR ("widthPercent") ("widthPercent") false
  let a4 := fixStep inputs a3 dataR ("heightPercent") ("heightPercent") false
  fixStep inputs a4 dataR ("imageUrl") ("imageUrl") true

/-- The extractFrame-node fix-ups (`workflowExecutor.ts` lines 296–304). -/
def extractFrameFix (dataR inputs acc : RecordV) : RecordV :=
  let a1 := fixStep inputs acc dataR ("timestamp") ("timestamp") false
  fixStep inputs a1 dataR ("videoUrl") ("videoUrl") true

/-- The llm-node fix-ups (`workflowExecutor.ts` lines 307–318); note the
`userMessage` data field feeds the `userPrompt` input. -/
def llmFix (dataR inputs acc : RecordV) : RecordV :=
  let a1 := fixStep inputs acc dataR ("model") ("model") true
  let a2 := fixStep inputs a1 dataR ("systemPrompt") ("systemPrompt") true
  fixStep inputs a2 dataR ("userMessage") ("userPrompt") true

/-- The executor's final input assembly for a node about to run
(`workflowExecutor.ts` lines 268–318): static `data` overlaid by collected
inputs, then the type-specific fix-ups. -/
def assembleNodeInputs (nd : Node) (inputs : RecordV) : RecordV :=
  let base := mergeR nd.data inputs
  let b1 := if nd.type = "crop" then cropFix nd.data inputs base else base
  let b2 := if nd.type = "extractFrame" then extractFrameFix nd.data inputs b1 else b1
  if nd.type = "llm" then llmFix nd.data inputs b2 else b2

/-- The uniform result contract of a node handler
(`{success, output?, error?}`; duration is irrelevant to the verified
properties). -/
structure HandlerResult where
  success : Bool
  output : Option Value
  error : Option String

/-- An external node handler: `executeNode(nodeId, nodeType, inputs)`.
A handler that throws is modelled by a `success := false` result, exactly as
the `catch` block of `executeNode` does. -/
abbrev Handler := String → String → RecordV → HandlerResult

/-- The run-loop state of `executeWorkflow`: the execution graph, the
`completed` id set, the `errors` map and the `nodeResults` map. -/
structure RunState where
  g : ExecGraph
  completed : List String
  errors : List (String × String)
  results : List (String × Option Value)

/-- `Set.add`. -/
def addOnce (l : List String) (a : String) : List String :=
  if a ∈ l then l else l ++ [a]

/-- The deadlock error message thrown by `executeWorkflow`. -/
def deadlockMsg : String := "Execution deadlock: no nodes ready but workflow incomplete"

/-- Outcome of the wave loop: normal completion, a thrown run-level error,
or fuel exhaustion (proved unreachable for the fuel `executeWorkflow` uses). -/
inductive RunResult where
  | ok (st : RunState)
  | err (st : RunState) (msg : String)
  | outOfFuel (st : RunState)

/-- One dispatched node of a wave (`workflowExecutor.ts` lines 253–390):
mark running, collect and assemble inputs, invoke the handler, record the
terminal status/output/error, and add the id to `completed`. -/
def processNode (h : Handler) (edges : List Edge) (st : RunState)
    (nodeId : String) : RunState :=
  match alGet st.g nodeId with
  | none => st
  | some en =>
    let g1 := alSet st.g nodeId { en with status := .running }
    let inputs := collectNodeInputs nodeId g1 edges (some en.node.type)
    let nodeInputs := assembleNodeInputs en.node inputs
    let r := h nodeId en.node.type nodeInputs
    if r.success then
      { g := alSet g1 nodeId { en with status := .completed, output := r.output }
        completed := addOnce st.completed nodeId
        errors := st.errors
        results := alSet st.results nodeId r.output }
    else
      { g := alSet g1 nodeId { en with status := .failed, error := r.error }
        completed := addOnce st.completed nodeId
        errors := alSet st.errors nodeId (r.error.getD ("Unknown error"))
        results := st.results }

/-- The wave loop of `executeWorkflow` (`workflowExecutor.ts` lines 238–396).
Each iteration: if not everything is completed, compute the ready set, throw
the deadlock error if it is empty, else dispatch the wave.  A wave's nodes
only read state produced by earlier waves, so the concurrent dispatch is
modelled as a left fold over the ready ids. -/
def runLoop (h : Handler) (edges : List Edge) (total : Nat) :
    Nat → RunState → RunResult
  | 0, st => .outOfFuel st
  | fuel + 1, st =>
    if st.completed.length < total then
      let ready := getReadyNodes st.g
      if ready.isEmpty then .err st deadlockMsg
      else runLoop h edges total fuel
        ((ready.map (fun p => p.2.node.id)).foldl (processNode h edges) st)
    else .ok st

/-- `executeWorkflow` restricted to its engine core: build the execution
graph and drive the wave loop.  Each non-deadlocked wave completes at least
one node, so `nodes.length + 1` units of fuel always suffice. -/
def executeWorkflow (h : Handler) (nodes : List Node) (edges : List Edge) : RunResult :=
  runLoop h edges nodes.length (nodes.length + 1)
    ⟨buildExecutionGraph nodes edges, [], [], []⟩

/-- The run-level outcome written after the loop. -/
structure WorkflowOutcome where
  status : String
  error : Option String

/-- Run finalisation (`workflowExecutor.ts` lines 398–416): `failed` with the
joined error messages when any error was recorded, else `completed`. -/
def finalizeRun (st : RunState) : WorkflowOutcome :=
  if st.errors.length > 0 then
    ⟨"failed", some (String.intercalate ("; ") (st.errors.map Prod.snd))⟩
  else ⟨"completed", none⟩

/-- Result of a structural validation. -/
structure ValidationResult where
  valid : Bool
  error : Option String

/-- The referential check of `validateWorkflowDAG`
(`workflowValidation.ts` lines 82–96): first offending edge wins, and within
an edge the missing source is reported in preference to the missing target. -/
def checkEdgeRefs (ids : List String) : List Edge → ValidationResult
  | [] => ⟨true, none⟩
  | e :: es =>
    if e.source ∉ ids then
      ⟨false, some ("Edge references non-existent source node: " ++ e.source)⟩
    else if e.target ∉ ids then
      ⟨false, some ("Edge references non-existent target node: " ++ e.target)⟩
    else checkEdgeRefs ids es

/-- `validateWorkflowDAG` from `workflowValidation.ts`: cycle check first,
then the referential check. -/
def validateWorkflowDAG (nodes : List Node) (edges : List Edge) : ValidationResult :=
  match detectCycles nodes edges with
  | some cyc =>
    ⟨false, some ("Workflow contains a cycle: " ++ String.intercalate (" -> ") cyc)⟩
  | none => checkEdgeRefs (nodes.map Node.id) edges

/-- The referential check of the executor's `validateDAG`
(`workflowExecutor.ts` lines 140–150). -/
def checkEdgeRefs2 (nodes : List Node) : List Edge → ValidationResult
  | [] => ⟨true, none⟩
  | e :: es =>
    let sourceExists := nodes.any (fun n => decide (n.id = e.source))
    let targetExists := nodes.any (fun n => decide (n.id = e.target))
    if !sourceExists || !targetExists then
      ⟨false, some ("Edge references non-existent node: " ++
        (if !sourceExists then e.source else e.target))⟩
    else checkEdgeRefs2 nodes es

/-- `validateDAG` from `workflowExecutor.ts`. -/
def validateDAG (nodes : List Node) (edges : List Edge) : ValidationResult :=
  match detectCycles nodes edges with
  | some cyc =>
    ⟨false, some ("Workflow contains a cycle: " ++ String.intercalate (" -> ") cyc)⟩
  | none => checkEdgeRefs2 nodes edges

/-- A vertex is safe when no cycle of the edge relation is reachable from it. -/
def Safe (edges : List Edge) (v : String) : Prop :=
  ∀ y, Relation.ReflTransGen (EStep edges) v y →
    ¬ Relation.TransGen (EStep edges) y y

/-- Shape of every cycle path reported by `detectCycles`: a chain of real
edges whose final element already occurs earlier in the path. -/
def cycleValidPath (edges : List Edge) (p : List String) : Prop :=
  p.Chain' (EStep edges) ∧ ∃ c w, p = c ++ [w] ∧ w ∈ c

/-- The keys of an association list, in order. -/
def keys {α : Type} (l : List (String × α)) : List String :=
  l.map Prod.fst

/-- Integer read from a record, for stating concrete input/output facts. -/
def numAt (r : RecordV) (k : String) : Option Int :=
  match alGet r k with
  | some (.num n) => some n
  | _ => none

/-- Concrete execution graph: node `a` already failed, node `b` pending with
the single dependency `a`. -/
def failedDepGraph : ExecGraph :=
  [("a", { node := ⟨"a", "text", []⟩, dependencies := [], dependents := ["b"],
           status := .failed, inputs := [], output := none, error := some ("x") }),
   ("b", { node := ⟨"b", "text", []⟩, dependencies := ["a"], dependents := [],
           status := .pending, inputs := [], output := none, error := none })]

/-- Concrete crop node with static `xPercent = 5`. -/
def cropNodeEx : Node := ⟨"C", "crop", [("xPercent", .num 5)]⟩

/-- Concrete execution graph: a completed text source with output `"0"`
feeding the crop node `C`. -/
def cropGraphEx : ExecGraph :=
  [("S", { node := ⟨"S", "text", []⟩, dependencies := [], dependents := ["C"],
           status := .completed, inputs := [], output := some (.str ("0")), error := none }),
   ("C", { node := cropNodeEx, dependencies := ["S"], dependents := [],
           status := .pending, inputs := [], output := none, error := none })]

/-- The edge wiring the source output into the crop node's `x_percent` port. -/
def cropEdgeEx : Edge := ⟨"e", "S", "C", none, some ("x_percent")⟩

/-- Concrete node with a static field `foo = 1`. -/
def fooNodeEx : Node := ⟨"M", "text", [("foo", .num 1)]⟩

/-- A completed source node whose output is the empty string (falsy). -/
def emptyOutSource : ExecutionNode :=
  { node := ⟨"S", "text", []⟩, dependencies := [], dependents := ["M"],
    status := .completed, inputs := [], output := some (.str ("")), error := none }

/-- Graph holding only the falsy-output source. -/
def falsyGraphEx : ExecGraph := [("S", emptyOutSource)]

/-- Edge from the falsy-output source into port `foo` of node `M`. -/
def falsyEdgeEx : Edge := ⟨"e", "S", "M", none, some ("foo")⟩

/-- Bookkeeping invariant of the edge fold of `buildExecutionGraph`: the key
set is `K`, every node's dependency list records exactly the sources of the
`dedges` edges into it whose source is present, without repetition, and dually
every node's dependents list records the targets of the `pedges` edges out of
it. -/
def DepGood2 (K : List String) (dedges pedges : List Edge) (g : ExecGraph) : Prop :=
  keys g = K ∧
  ∀ k n, alGet g k = some n →
    n.dependencies.Nodup ∧ n.dependents.Nodup ∧
    (∀ s, s ∈ n.dependencies ↔ s ∈ K ∧ ∃ e ∈ dedges, e.source = s ∧ e.target = k) ∧
    (∀ t, t ∈ n.dependents ↔ t ∈ K ∧ ∃ e ∈ pedges, e.source = k ∧ e.target = t)

/-- Two nodes for the duplicate-edge example. -/
def dupNodes : List Node := [⟨"A", "text", []⟩, ⟨"B", "text", []⟩]

/-- The same `(A, B)` edge submitted twice under different edge ids. -/
def dupEdges : List Edge :=
  [⟨"e1", "A", "B", none, none⟩, ⟨"e2", "A", "B", none, none⟩]

/-- The execution node the builder produces for `B` above. -/
def dupBNode : ExecutionNode :=
  ⟨⟨"B", "text", []⟩, ["A"], [], .pending, [], none, none⟩

/-- Invariant of the DFS state used for soundness of the reported path:
every id on the recursion stack occurs in the recorded path, and the path is
a chain of real edges. -/
def InvCyc (edges : List Edge) (s : DfsSt) : Prop :=
  (∀ x ∈ s.recStack, x ∈ s.cycle) ∧ s.cycle.Chain' (EStep edges)

/-- The recorded path is empty or its last element has a real edge to `u`
(the node the DFS is about to push). -/
def cycEnd (edges : List Edge) (s : DfsSt) (u : String) : Prop :=
  s.cycle = [] ∨ ∃ z, s.cycle.getLast? = some z ∧ EStep edges z u

/-- Invariant of the DFS state used for completeness: the recursion stack is
a subset of the visited set, and every visited id that is no longer on the
stack is `Safe` (reaches no cycle). -/
def InvSafe (edges : List Edge) (s : DfsSt) : Prop :=
  (∀ x ∈ s.recStack, x ∈ s.visited) ∧
  (∀ x ∈ s.visited, x ∉ s.recStack → Safe edges x)

/-- Three nodes whose edges form the cycle `b → c → b` reachable from `a`. -/
def cexCycNodes : List Node :=
  [⟨"a", "text", []⟩, ⟨"b", "text", []⟩, ⟨"c", "text", []⟩]

/-- Edges `a → b`, `b → c`, `c → b`. -/
def cexCycEdges : List Edge :=
  [⟨"e1", "a", "b", none, none⟩, ⟨"e2", "b", "c", none, none⟩,
   ⟨"e3", "c", "b", none, none⟩]

/-- Two nodes forming the two-cycle `a → b → a`. -/
def w3Nodes : List Node := [⟨"a", "text", []⟩, ⟨"b", "text", []⟩]

/-- Edges `a → b` and `b → a`. -/
def w3Edges : List Edge :=
  [⟨"e1", "a", "b", none, none⟩, ⟨"e2", "b", "a", none, none⟩]

/-- Four nodes in two disconnected acyclic components. -/
def w5Nodes : List Node :=
  [⟨"a", "text", []⟩, ⟨"b", "text", []⟩, ⟨"c", "text", []⟩, ⟨"d", "text", []⟩]

/-- Edges `a → b` and `c → d` (two components, no cycle). -/
def w5Edges : List Edge :=
  [⟨"e1", "a", "b", none, none⟩, ⟨"e2", "c", "d", none, none⟩]

/-- A topological rank witnessing that `w5Edges` is acyclic. -/
def rank5 : String → Nat := fun x => if x = "a" ∨ x = "c" then 0 else 1

/-- A single node `n`. -/
def w8Nodes : List Node := [⟨"n", "text", []⟩]

/-- An edge both of whose endpoints are absent from the node set. -/
def w8Edge : Edge := ⟨"e", "x", "y", none, none⟩

/-- The edge list holding only the fully dangling edge. -/
def w8Edges : List Edge := [w8Edge]

/-- A topological rank witnessing that `w8Edges` is acyclic. -/
def rank8 : String → Nat := fun z => if z = "x" then 0 else 1

/-- Invariant of the wave loop: the key set is the fixed duplicate-free `K`,
every entry's node id agrees with its key, and the `completed` set holds
exactly the ids whose status is terminal. -/
def RunInv (K : List String) (st : RunState) : Prop :=
  keys st.g = K ∧ K.Nodup ∧
  (∀ k n, alGet st.g k = some n → n.node.id = k) ∧
  st.completed.Nodup ∧
  (∀ k ∈ st.completed, k ∈ K) ∧
  (∀ k n, alGet st.g k = some n →
    (k ∈ st.completed ↔ (n.status = .completed ∨ n.status = .failed)))

/-- Invariant tying the `errors` map to node statuses: an id has an error
entry exactly when its node is `failed`, and each entry's message is the
node's recorded error (or the `"Unknown error"` default when the handler gave
none). -/
def ErrInv (st : RunState) : Prop :=
  (∀ k, (∃ m, (k, m) ∈ st.errors) ↔
    ∃ n, alGet st.g k = some n ∧ n.status = .failed) ∧
  (∀ p ∈ st.errors, ∃ n, alGet st.g p.1 = some n ∧ n.status = .failed ∧
    (n.error = some p.2 ∨ (n.error = none ∧ p.2 = "Unknown error")))

/-- A node that can never become ready: it is pending and one of its
dependencies is not a key of the execution graph. -/
def BlockedAt (k : String) (st : RunState) : Prop :=
  ∃ n, alGet st.g k = some n ∧ n.status = .pending ∧
    ∃ d ∈ n.dependencies, alGet st.g d = none

/-- A pending node `A` whose single dependency `ghost` exists nowhere. -/
def ghostEN : ExecutionNode :=
  { node := ⟨"A", "text", []⟩, dependencies := ["ghost"], dependents := [],
    status := .pending, inputs := [], output := none, error := none }

/-- A hand-constructed one-node graph whose dependency `ghost` resolves to no
node (bypassing validation). -/
def ghostGraph : ExecGraph := [("A", ghostEN)]

/-- A handler that fails every node with message `boom`. -/
def failHandler : Handler := fun _ _ _ => ⟨false, none, some ("boom")⟩

/-- A single text node `A`. -/
def oneFailNodes : List Node := [⟨"A", "text", []⟩]

/-- The final state of running `oneFailNodes` under `failHandler`. -/
def oneFailFinal : RunState :=
  { g := [("A", { node := ⟨"A", "text", []⟩, dependencies := [], dependents := [],
                  status := .failed, inputs := [], output := none,
                  error := some ("boom") })],
    completed := ["A"], errors := [("A", "boom")], results := [] }

/-- The diamond graph `A → {B, C} → D`. -/
def diamondNodes : List Node :=
  [⟨"A", "text", [("content", .str ("hi"))]⟩, ⟨"B", "text", []⟩,
   ⟨"C", "text", []⟩, ⟨"D", "text", []⟩]

/-- The diamond's edges. -/
def diamondEdges : List Edge :=
  [⟨"e1", "A", "B", none, some ("in")⟩, ⟨"e2", "A", "C", none, some ("in")⟩,
   ⟨"e3", "B", "D", none, some ("b")⟩, ⟨"e4", "C", "D", none, some ("c")⟩]

/-- A handler that fails exactly node `B`. -/
def diamondHandler : Handler := fun i _ _ =>
  if i = "B" then ⟨false, none, some ("boom")⟩ else ⟨true, some (.str ("ok")), none⟩

/-- The handler result `processNode` obtains for the entry `(r, en)`:
the handler applied to the inputs assembled over the graph in which `r` is
already marked running. -/
abbrev handlerCallAt (h : Handler) (edges : List Edge) (st : RunState)
    (r : String) (en : ExecutionNode) : HandlerResult :=
  h r en.node.type (assembleNodeInputs en.node
    (collectNodeInputs r (alSet st.g r { en with status := Status.running }) edges
      (some en.node.type)))

/-- The diamond's execution node for `A` as built by `buildExecutionGraph`. -/
def enA : ExecutionNode :=
  { node := ⟨"A", "text", [("content", Value.str ("hi"))]⟩, dependencies := [],
    dependents := ["B", "C"], status := .pending, inputs := [], output := none,
    error := none }

/-- The diamond's execution node for `B` as built. -/
def enB1 : ExecutionNode :=
  { node := ⟨"B", "text", []⟩, dependencies := ["A"], dependents := ["D"],
    status := .pending, inputs := [], output := none, error := none }

/-- The diamond's execution node for `C` as built. -/
def enC1 : ExecutionNode :=
  { node := ⟨"C", "text", []⟩, dependencies := ["A"], dependents := ["D"],
    status := .pending, inputs := [], output := none, error := none }

/-- The diamond's execution node for `D` as built. -/
def enD0 : ExecutionNode :=
  { node := ⟨"D", "text", []⟩, dependencies := ["B", "C"], dependents := [],
    status := .pending, inputs := [], output := none, error := none }

/-- The diamond's run state after the first wave (`A` completed with the
handler output `oA`). -/
def dmdSt1 (oA : Option Value) : RunState :=
  { g := [("A", { enA with status := .completed, output := oA }),
          ("B", enB1), ("C", enC1), ("D", enD0)],
    completed := ["A"], errors := [], results := [("A", oA)] }

/-- The diamond's run state after `B` of the second wave failed with the raw
handler error `eB`. -/
def dmdSt2 (oA : Option Value) (eB : Option String) : RunState :=
  { g := [("A", { enA with status := .completed, output := oA }),
          ("B", { enB1 with status := .failed, error := eB }),
          ("C", enC1), ("D", enD0)],
    completed := ["A", "B"],
    errors := [("B", eB.getD ("Unknown error"))],
    results := [("A", oA)] }

/-- The diamond's run state after the second wave: `A`, `C` completed with
outputs `oA`, `oC`; `B` failed with raw error `eB`; `D` still pending. -/
def dmdSt3 (oA oC : Option Value) (eB : Option String) : RunState :=
  { g := [("A", { enA with status := .completed, output := oA }),
          ("B", { enB1 with status := .failed, error := eB }),
          ("C", { enC1 with status := .completed, output := oC }),
          ("D", enD0)],
    completed := ["A", "B", "C"],
    errors := [("B", eB.getD ("Unknown error"))],
    results := [("A", oA), ("C", oC)] }

/-!  Association-list lemmas. -/

theorem alGet_alSet_self {α : Type} (l : List (String × α)) (k : String) (v : α) :
    alGet (alSet l k v) k = some v := by
  induction l with
  | nil => simp [alSet, alGet]
  | cons p r ih =>
    by_cases h : p.1 = k
    · simp [alSet, h, alGet]
    · simp [alSet, h, alGet, ih]

theorem alGet_alSet_ne {α : Type} (l : List (String × α)) (k k' : String) (v : α)
    (h : k' ≠ k) : alGet (alSet l k v) k' = alGet l k' := by
  induction l with
  | nil =>
    show (if k = k' then some v else none) = none
    rw [if_neg (Ne.symm h)]
  | cons p r ih =>
    by_cases hp : p.1 = k
    · show alGet (if p.1 = k then (k, v) :: r else p :: alSet r k v) k' = alGet (p :: r) k'
      rw [if_pos hp]
      show (if k = k' then some v else alGet r k') = if p.1 = k' then some p.2 else alGet r k'
      have hp' : p.1 ≠ k' := by
        rw [hp]
        exact Ne.symm h
      rw [if_neg (Ne.symm h), if_neg hp']
    · show alGet (if p.1 = k then (k, v) :: r else p :: alSet r k v) k' = alGet (p :: r) k'
      rw [if_neg hp]
      show (if p.1 = k' then some p.2 else alGet (alSet r k v) k') =
        if p.1 = k' then some p.2 else alGet r k'
      rw [ih]

theorem mem_cons_keys {α : Type} {p : String × α} {r : List (String × α)} {k : String}
    (h : k ∈ keys (p :: r)) : k = p.1 ∨ k ∈ keys r := by
  simpa [keys] using h

theorem keys_alSet_of_mem {α : Type} (l : List (String × α)) (k : String) (v : α)
    (h : k ∈ keys l) : keys (alSet l k v) = keys l := by
  induction l with
  | nil => exact absurd h (by simp [keys])
  | cons p r ih =>
    by_cases hp : p.1 = k
    · show keys (if p.1 = k then (k, v) :: r else p :: alSet r k v) = keys (p :: r)
      rw [if_pos hp]
      show k :: keys r = p.1 :: keys r
      rw [hp]
    · have hr : k ∈ keys r := by
        rcases mem_cons_keys h with h1 | h2
        · exact absurd h1.symm hp
        · exact h2
      show keys (if p.1 = k then (k, v) :: r else p :: alSet r k v) = keys (p :: r)
      rw [if_neg hp]
      show p.1 :: keys (alSet r k v) = p.1 :: keys r
      rw [ih hr]

theorem keys_alSet_of_not_mem {α : Type} (l : List (String × α)) (k : String) (v : α)
    (h : k ∉ keys l) : keys (alSet l k v) = keys l ++ [k] := by
  induction l with
  | nil => rfl
  | cons p r ih =>
    have hp : p.1 ≠ k := fun hh => h (by simp [keys, hh])
    have hr : k ∉ keys r := fun hh => h (by simp [keys]; exact Or.inr (by simpa [keys] using hh))
    show keys (if p.1 = k then (k, v) :: r else p :: alSet r k v) = keys (p :: r) ++ [k]
    rw [if_neg hp]
    show p.1 :: keys (alSet r k v) = (p.1 :: keys r) ++ [k]
    rw [ih hr]
    rfl

theorem alGet_eq_none_of_not_mem {α : Type} (l : List (String × α)) (k : String)
    (h : k ∉ keys l) : alGet l k = none := by
  induction l with
  | nil => rfl
  | cons p r ih =>
    have hp : p.1 ≠ k := fun hh => h (by simp [keys, hh])
    have hr : k ∉ keys r := fun hh => h (by simp [keys]; exact Or.inr (by simpa [keys] using hh))
    show (if p.1 = k then some p.2 else alGet r k) = none
    rw [if_neg hp, ih hr]

theorem mem_keys_of_alGet {α : Type} (l : List (String × α)) (k : String) (v : α)
    (h : alGet l k = some v) : k ∈ keys l := by
  by_contra hk
  rw [alGet_eq_none_of_not_mem l k hk] at h
  exact Option.noConfusion h

/-!  Merge (object spread) lemmas. -/

theorem alGet_mergeR_of_not_mem {a b : RecordV} {k : String}
    (h : k ∉ keys b) : alGet (mergeR a b) k = alGet a k := by
  induction b generalizing a with
  | nil => rfl
  | cons p r ih =>
    have hp : k ≠ p.1 := fun hh => h (by simp [keys, hh])
    have hr : k ∉ keys r := fun hh => h (by simp [keys]; exact Or.inr (by simpa [keys] using hh))
    show alGet (mergeR (alSet a p.1 p.2) r) k = alGet a k
    rw [ih hr, alGet_alSet_ne _ _ _ _ hp]

theorem alGet_mergeR_right {a b : RecordV} {k : String} {v : Value}
    (hnd : (keys b).Nodup) (h : alGet b k = some v) :
    alGet (mergeR a b) k = some v := by
  induction b generalizing a with
  | nil => exact absurd h (by simp [alGet])
  | cons p r ih =>
    have hnd2 : (p.1 :: keys r).Nodup := hnd
    have h1 : p.1 ∉ keys r := (List.nodup_cons.mp hnd2).1
    have h2 : (keys r).Nodup := (List.nodup_cons.mp hnd2).2
    by_cases hp : p.1 = k
    · have hv : some p.2 = some v := by
        have : (if p.1 = k then some p.2 else alGet r k) = some v := h
        rwa [if_pos hp] at this
      subst hp
      show alGet (mergeR (alSet a p.1 p.2) r) p.1 = some v
      rw [alGet_mergeR_of_not_mem h1, alGet_alSet_self]
      exact hv
    · have h' : alGet r k = some v := by
        have : (if p.1 = k then some p.2 else alGet r k) = some v := h
        rwa [if_neg hp] at this
      exact ih h2 h'

/-!  Input-assembly (overlay) lemmas. -/

theorem alGet_fixStep {inputs acc dataR : RecordV} {sK dK k : String}
    {t : Bool} {v : Value} (h : alGet inputs k = some v) (ht : v.truthy = true) :
    alGet (fixStep inputs acc dataR sK dK t) k = alGet acc k := by
  unfold fixStep
  by_cases hk : k = dK
  · subst hk
    have hfal : falsyAt inputs k = false := by
      unfold falsyAt
      rw [h]
      show (!v.truthy) = false
      rw [ht]
      rfl
    rw [hfal]
    simp
  · by_cases hg : (falsyAt inputs dK &&
        (if t then truthyAt dataR sK else presentAt dataR sK)) = true
    · rw [if_pos hg]
      cases hD : alGet dataR sK with
      | none => rfl
      | some w =>
        show alGet (alSet acc dK w) k = alGet acc k
        exact alGet_alSet_ne _ _ _ _ hk
    · rw [if_neg hg]

theorem alGet_cropFix {dataR inputs acc : RecordV} {k : String} {v : Value}
    (h : alGet inputs k = some v) (ht : v.truthy = true) :
    alGet (cropFix dataR inputs acc) k = alGet acc k := by
  unfold cropFix
  rw [alGet_fixStep h ht, alGet_fixStep h ht, alGet_fixStep h ht,
    alGet_fixStep h ht, alGet_fixStep h ht]

theorem alGet_extractFrameFix {dataR inputs acc : RecordV} {k : String} {v : Value}
    (h : alGet inputs k = some v) (ht : v.truthy = true) :
    alGet (extractFrameFix dataR inputs acc) k = alGet acc k := by
  unfold extractFrameFix
  rw [alGet_fixStep h ht, alGet_fixStep h ht]

theorem alGet_llmFix {dataR inputs acc : RecordV} {k : String} {v : Value}
    (h : alGet inputs k = some v) (ht : v.truthy = true) :
    alGet (llmFix dataR inputs acc) k = alGet acc k := by
  unfold llmFix
  rw [alGet_fixStep h ht, alGet_fixStep h ht, alGet_fixStep h ht]

theorem alGet_assemble_of_truthy (nd : Node) (inputs : RecordV) (k : String)
    (v : Value) (hnd : (keys inputs).Nodup) (h : alGet inputs k = some v)
    (ht : v.truthy = true) :
    alGet (assembleNodeInputs nd inputs) k = some v := by
  have hbase : alGet (mergeR nd.data inputs) k = some v :=
    alGet_mergeR_right hnd h
  by_cases c1 : nd.type = "crop"
  all_goals by_cases c2 : nd.type = "extractFrame"
  all_goals by_cases c3 : nd.type = "llm"
  all_goals
    first
    | exact absurd (c1.symm.trans c2) (by decide)
    | exact absurd (c1.symm.trans c3) (by decide)
    | exact absurd (c2.symm.trans c3) (by decide)
    | (simp [assembleNodeInputs, c1, c2, c3]
       first
       | (simp only [alGet_llmFix h ht, alGet_extractFrameFix h ht, alGet_cropFix h ht]
          exact hbase)
       | exact hbase)

theorem assemble_generic (nd : Node) (inputs : RecordV)
    (h1 : nd.type ≠ "crop") (h2 : nd.type ≠ "extractFrame")
    (h3 : nd.type ≠ "llm") :
    assembleNodeInputs nd inputs = mergeR nd.data inputs := by
  simp only [assembleNodeInputs, if_neg h1, if_neg h2, if_neg h3]

/-!  Collection lemmas. -/

theorem collectStep_no_contribution {g : ExecGraph} {ty : Option String}
    {inputs : RecordV} {e : Edge} {sn : ExecutionNode}
    (hs : alGet g e.source = some sn) (hf : truthyO sn.output = false) :
    collectStep g ty inputs e = inputs := by
  unfold collectStep
  split
  · rfl
  · rename_i sn' hsn'
    rw [hs] at hsn'
    injection hsn' with hsn'
    subst hsn'
    split
    · rfl
    · rename_i out hout
      rw [hout] at hf
      have hft : out.truthy = false := by simpa [truthyO] using hf
      rw [if_neg]
      rintro ⟨-, h2⟩
      rw [hft] at h2
      exact Bool.false_ne_true h2

/-- C1 (amended): in the `dag.ts` `getReadyNodes` used by the live executor,
a pending node is in the ready set if and only if every one of its
dependencies has status `completed`; a `failed` dependency does NOT count as
resolved, so it blocks its dependents' readiness for the whole run. -/
theorem getReadyNodes_mem_iff (g : ExecGraph) (p : String × ExecutionNode) :
    p ∈ getReadyNodes g ↔
      p ∈ g ∧ p.2.status = Status.pending ∧
        ∀ d ∈ p.2.dependencies,
          (alGet g d).map ExecutionNode.status = some Status.completed := by
  unfold getReadyNodes depCompleted
  simp [List.mem_filter, List.all_eq_true, and_assoc]

/-- C1 (counterexample): in `failedDepGraph`, node `b` is pending and its only
dependency `a` is in the terminal state `failed`, yet `getReadyNodes` returns
the empty set — refuting the claim that a `failed` dependency counts as
resolved.  The legacy DAG module's ready computation does return `b`, so the
policy is also not uniform across the two modules. -/
theorem readiness_failed_dep_counterexample :
    (alGet failedDepGraph ("b")).map ExecutionNode.status = some Status.pending ∧
    (alGet failedDepGraph ("b")).map ExecutionNode.dependencies = some ["a"] ∧
    (alGet failedDepGraph ("a")).map ExecutionNode.status = some Status.failed ∧
    getReadyNodes failedDepGraph = [] ∧
    (legacyGetReadyNodes failedDepGraph).map Prod.fst = ["b"] :=
  ⟨rfl, rfl, rfl, rfl, rfl⟩

/-- C4 (amended): a collected connection value that is truthy always takes
precedence over static node configuration in the executor's final input
assembly, and for node types without special fix-ups (anything other than
`crop`, `extractFrame`, `llm`) the final input set is exactly the static data
overlaid by the collected connection values. -/
theorem input_overlay_amended :
    (∀ (nd : Node) (inputs : RecordV) (k : String) (v : Value),
        (keys inputs).Nodup → alGet inputs k = some v → v.truthy = true →
        alGet (assembleNodeInputs nd inputs) k = some v) ∧
    (∀ (nd : Node) (inputs : RecordV),
        nd.type ≠ "crop" → nd.type ≠ "extractFrame" → nd.type ≠ "llm" →
        assembleNodeInputs nd inputs = mergeR nd.data inputs) :=
  ⟨fun nd inputs k v hnd h ht => alGet_assemble_of_truthy nd inputs k v hnd h ht,
   fun nd inputs h1 h2 h3 => assemble_generic nd inputs h1 h2 h3⟩

/-- C4 (witness): the claim's own example — static `foo = 1` with a wired
value `2` on port `foo` resolves to `foo = 2`. -/
theorem input_overlay_amended_witness :
    (keys ([(("foo"), Value.num 2)] : RecordV)).Nodup ∧
    alGet ([(("foo"), Value.num 2)] : RecordV) ("foo") = some (Value.num 2) ∧
    Value.truthy (Value.num 2) = true ∧
    alGet (assembleNodeInputs fooNodeEx [(("foo"), Value.num 2)]) ("foo") =
      some (Value.num 2) :=
  ⟨by decide, rfl, rfl,
   input_overlay_amended.1 fooNodeEx [(("foo"), Value.num 2)] ("foo")
     (Value.num 2) (by decide) rfl rfl⟩

/-- C4 (counterexample): a crop node with static `xPercent = 5` and an
incoming connection on port `x_percent` carrying the truthy output `"0"`
collects the connection value `0`, but the executor's crop fix-up overrides
the falsy collected value with the static `5` — static configuration wins
over the wired value, refuting "connections take precedence, never the
reverse". -/
theorem crop_overlay_counterexample :
    numAt (collectNodeInputs ("C") cropGraphEx [cropEdgeEx] (some ("crop")))
      ("xPercent") = some 0 ∧
    Value.truthy (Value.num 0) = false ∧
    numAt (assembleNodeInputs cropNodeEx
        (collectNodeInputs ("C") cropGraphEx [cropEdgeEx] (some ("crop"))))
      ("xPercent") = some 5 :=
  ⟨rfl, rfl, rfl⟩

/-- C10 (confirmed): in `collectNodeInputs`, an incoming edge whose source is
`completed` but whose output is falsy contributes no entry at all: the
collected inputs are the same as if the edge were absent, so the executor's
final input assembly also falls back to static data exactly as if the
connection did not exist. -/
theorem collectNodeInputs_skips_falsy_completed (nodeId : String) (g : ExecGraph)
    (ty : Option String) (pre post : List Edge) (e : Edge) (sn : ExecutionNode)
    (he : e.target = nodeId) (hs : alGet g e.source = some sn)
    (_hst : sn.status = Status.completed) (hf : truthyO sn.output = false) :
    collectNodeInputs nodeId g (pre ++ e :: post) ty =
      collectNodeInputs nodeId g (pre ++ post) ty ∧
    ∀ nd : Node,
      assembleNodeInputs nd (collectNodeInputs nodeId g (pre ++ e :: post) ty) =
        assembleNodeInputs nd (collectNodeInputs nodeId g (pre ++ post) ty) := by
  have hdec : decide (e.target = nodeId) = true := decide_eq_true he
  have hmain : collectNodeInputs nodeId g (pre ++ e :: post) ty =
      collectNodeInputs nodeId g (pre ++ post) ty := by
    unfold collectNodeInputs
    rw [List.filter_append, List.filter_append, List.filter_cons, hdec]
    rw [if_pos rfl, List.foldl_append, List.foldl_append, List.foldl_cons,
      collectStep_no_contribution hs hf]
  exact ⟨hmain, fun nd => by rw [hmain]⟩

/-!  Lemmas for the dependency-graph builder. -/

theorem alGet_alSet {α : Type} (l : List (String × α)) (a k : String) (v : α) :
    alGet (alSet l a v) k = if k = a then some v else alGet l k := by
  by_cases h : k = a
  · subst h
    rw [alGet_alSet_self, if_pos rfl]
  · rw [alGet_alSet_ne _ _ _ _ h, if_neg h]

theorem mem_keys_alSet {α : Type} (l : List (String × α)) (a k : String) (v : α) :
    k ∈ keys (alSet l a v) ↔ k ∈ keys l ∨ k = a := by
  by_cases h : a ∈ keys l
  · rw [keys_alSet_of_mem _ _ _ h]
    constructor
    · exact Or.inl
    · rintro (hk | rfl)
      · exact hk
      · exact h
  · rw [keys_alSet_of_not_mem _ _ _ h]
    simp [List.mem_append]

theorem nodup_keys_alSet {α : Type} (l : List (String × α)) (a : String) (v : α)
    (h : (keys l).Nodup) : (keys (alSet l a v)).Nodup := by
  by_cases ha : a ∈ keys l
  · rw [keys_alSet_of_mem _ _ _ ha]
    exact h
  · rw [keys_alSet_of_not_mem _ _ _ ha]
    rw [List.nodup_append]
    refine ⟨h, List.nodup_singleton a, ?_⟩
    intro x hx hx'
    simp at hx'
    subst hx'
    exact ha hx

theorem keys_cons {α : Type} (p : String × α) (r : List (String × α)) :
    keys (p :: r) = p.1 :: keys r := rfl

theorem mem_keys_iff_alGet {α : Type} (l : List (String × α)) (k : String) :
    k ∈ keys l ↔ ∃ v, alGet l k = some v := by
  induction l with
  | nil => simp [keys, alGet]
  | cons p r ih =>
    rw [keys_cons, List.mem_cons]
    by_cases hp : p.1 = k
    · subst hp
      simp [alGet]
    · constructor
      · rintro (h1 | h2)
        · exact absurd h1.symm hp
        · obtain ⟨v, hv⟩ := ih.mp h2
          refine ⟨v, ?_⟩
          show (if p.1 = k then some p.2 else alGet r k) = some v
          rw [if_neg hp]
          exact hv
      · rintro ⟨v, hv⟩
        have hv' : alGet r k = some v := by
          have h' : (if p.1 = k then some p.2 else alGet r k) = some v := hv
          rwa [if_neg hp] at h'
        exact Or.inr (ih.mpr ⟨v, hv'⟩)

theorem nodeFold_mem_keys (l : List Node) :
    ∀ (acc : ExecGraph) (k : String),
      k ∈ keys (l.foldl (fun g n => alSet g n.id (initExecNode n)) acc) ↔
        k ∈ keys acc ∨ k ∈ l.map Node.id := by
  induction l with
  | nil =>
    intro acc k
    simp
  | cons n ns ih =>
    intro acc k
    show k ∈ keys (ns.foldl _ (alSet acc n.id (initExecNode n))) ↔ _
    rw [ih, mem_keys_alSet]
    simp [List.mem_cons]
    tauto

theorem nodeFold_nodup (l : List Node) :
    ∀ acc : ExecGraph, (keys acc).Nodup →
      (keys (l.foldl (fun g n => alSet g n.id (initExecNode n)) acc)).Nodup := by
  induction l with
  | nil => exact fun acc h => h
  | cons n ns ih => exact fun acc h => ih _ (nodup_keys_alSet _ _ _ h)

theorem nodeFold_values (l : List Node) :
    ∀ acc : ExecGraph,
      (∀ k n, alGet acc k = some n → n.dependencies = [] ∧ n.dependents = []) →
      ∀ k n, alGet (l.foldl (fun g m => alSet g m.id (initExecNode m)) acc) k = some n →
        n.dependencies = [] ∧ n.dependents = [] := by
  induction l with
  | nil => exact fun acc h => h
  | cons m ms ih =>
    intro acc h
    apply ih
    intro k n hk
    rw [alGet_alSet] at hk
    by_cases hkm : k = m.id
    · rw [if_pos hkm] at hk
      injection hk with hk
      rw [← hk]
      exact ⟨rfl, rfl⟩
    · rw [if_neg hkm] at hk
      exact h k n hk

theorem depGood_init (nodes : List Node) :
    DepGood2 (keys (nodes.foldl (fun g n => alSet g n.id (initExecNode n)) []))
      [] [] (nodes.foldl (fun g n => alSet g n.id (initExecNode n)) []) := by
  refine ⟨rfl, ?_⟩
  intro k n hk
  obtain ⟨hd, hdp⟩ := nodeFold_values nodes []
    (by intro k n hk; cases hk) k n hk
  rw [hd, hdp]
  refine ⟨List.nodup_nil, List.nodup_nil, ?_, ?_⟩
  · intro s
    simp
  · intro t
    simp

theorem depGood_extend_of_absent {K : List String} {d p : List Edge}
    {g : ExecGraph} (e : Edge) (hg : DepGood2 K d p g)
    (habs : e.source ∉ K ∨ e.target ∉ K) :
    DepGood2 K (d ++ [e]) (p ++ [e]) g := by
  obtain ⟨hkeys, hval⟩ := hg
  refine ⟨hkeys, ?_⟩
  intro k n hk
  obtain ⟨h1, h2, h3, h4⟩ := hval k n hk
  have hkK : k ∈ K := by
    rw [← hkeys]
    exact mem_keys_of_alGet _ _ _ hk
  refine ⟨h1, h2, ?_, ?_⟩
  · intro s
    rw [h3 s]
    constructor
    · rintro ⟨hsK, e', he', h5, h6⟩
      exact ⟨hsK, e', List.mem_append_left _ he', h5, h6⟩
    · rintro ⟨hsK, e', he', h5, h6⟩
      rcases List.mem_append.mp he' with hdone | hsing
      · exact ⟨hsK, e', hdone, h5, h6⟩
      · have heq : e' = e := by simpa using hsing
        rw [heq] at h5 h6
        rcases habs with habs | habs
        · refine absurd ?_ habs
          rw [h5]
          exact hsK
        · refine absurd ?_ habs
          rw [h6]
          exact hkK
  · intro t
    rw [h4 t]
    constructor
    · rintro ⟨htK, e', he', h5, h6⟩
      exact ⟨htK, e', List.mem_append_left _ he', h5, h6⟩
    · rintro ⟨htK, e', he', h5, h6⟩
      rcases List.mem_append.mp he' with hdone | hsing
      · exact ⟨htK, e', hdone, h5, h6⟩
      · have heq : e' = e := by simpa using hsing
        rw [heq] at h5 h6
        rcases habs with habs | habs
        · refine absurd ?_ habs
          rw [h5]
          exact hkK
        · refine absurd ?_ habs
          rw [h6]
          exact htK

theorem depGood_stage1 {K : List String} {d p : List Edge} {g : ExecGraph}
    (e : Edge) (tn : ExecutionNode) (hg : DepGood2 K d p g)
    (hT : alGet g e.target = some tn) (hsK : e.source ∈ K) :
    DepGood2 K (d ++ [e]) p
      (if e.source ∈ tn.dependencies then g
       else alSet g e.target { tn with dependencies := tn.dependencies ++ [e.source] }) := by
  obtain ⟨hkeys, hval⟩ := hg
  by_cases hc : e.source ∈ tn.dependencies
  · rw [if_pos hc]
    refine ⟨hkeys, ?_⟩
    intro k n hk
    obtain ⟨h1, h2, h3, h4⟩ := hval k n hk
    refine ⟨h1, h2, ?_, h4⟩
    intro s
    constructor
    · intro hmem
      obtain ⟨hsK', e', he', h5, h6⟩ := (h3 s).mp hmem
      exact ⟨hsK', e', List.mem_append_left _ he', h5, h6⟩
    · rintro ⟨hsK', e', he', h5, h6⟩
      rcases List.mem_append.mp he' with hdone | hsing
      · exact (h3 s).mpr ⟨hsK', e', hdone, h5, h6⟩
      · have heq : e' = e := by simpa using hsing
        rw [heq] at h5 h6
        by_cases hkt : k = e.target
        · subst hkt
          rw [hT] at hk
          injection hk with hk
          rw [← hk, ← h5]
          exact hc
        · exact absurd h6.symm hkt
  · rw [if_neg hc]
    have htg : e.target ∈ keys g := mem_keys_of_alGet _ _ _ hT
    refine ⟨by rw [keys_alSet_of_mem _ _ _ htg]; exact hkeys, ?_⟩
    intro k n hk
    rw [alGet_alSet] at hk
    by_cases hkt : k = e.target
    · rw [if_pos hkt] at hk
      injection hk with hk
      obtain ⟨h1, h2, h3, h4⟩ := hval e.target tn hT
      subst hkt
      rw [← hk]
      refine ⟨?_, h2, ?_, ?_⟩
      · show (tn.dependencies ++ [e.source]).Nodup
        rw [List.nodup_append]
        refine ⟨h1, List.nodup_singleton _, ?_⟩
        intro x hx hx'
        simp at hx'
        subst hx'
        exact hc hx
      · intro s
        show s ∈ tn.dependencies ++ [e.source] ↔ _
        rw [List.mem_append]
        constructor
        · rintro (hmem | hmem)
          · obtain ⟨hsK', e', he', h5, h6⟩ := (h3 s).mp hmem
            exact ⟨hsK', e', List.mem_append_left _ he', h5, h6⟩
          · have hse : s = e.source := by simpa using hmem
            subst hse
            exact ⟨hsK, e, List.mem_append_right _ (by simp), rfl, rfl⟩
        · rintro ⟨hsK', e', he', h5, h6⟩
          rcases List.mem_append.mp he' with hdone | hsing
          · exact Or.inl ((h3 s).mpr ⟨hsK', e', hdone, h5, h6⟩)
          · have heq : e' = e := by simpa using hsing
            rw [heq] at h5 h6
            rw [← h5]
            simp
      · intro t
        show t ∈ tn.dependents ↔ _
        exact h4 t
    · rw [if_neg hkt] at hk
      obtain ⟨h1, h2, h3, h4⟩ := hval k n hk
      refine ⟨h1, h2, ?_, h4⟩
      intro s
      constructor
      · intro hmem
        obtain ⟨hsK', e', he', h5, h6⟩ := (h3 s).mp hmem
        exact ⟨hsK', e', List.mem_append_left _ he', h5, h6⟩
      · rintro ⟨hsK', e', he', h5, h6⟩
        rcases List.mem_append.mp he' with hdone | hsing
        · exact (h3 s).mpr ⟨hsK', e', hdone, h5, h6⟩
        · have heq : e' = e := by simpa using hsing
          rw [heq] at h5 h6
          exact absurd h6.symm hkt

theorem depGood_stage2 {K : List String} {d p : List Edge} {g1 : ExecGraph}
    (e : Edge) (hg : DepGood2 K d p g1) (htK : e.target ∈ K) :
    DepGood2 K d (p ++ [e]) (addDependent e g1) := by
  obtain ⟨hkeys, hval⟩ := hg
  unfold addDependent
  cases hS1 : alGet g1 e.source with
  | none =>
    refine ⟨hkeys, ?_⟩
    intro k n hk
    obtain ⟨h1, h2, h3, h4⟩ := hval k n hk
    refine ⟨h1, h2, h3, ?_⟩
    intro t
    constructor
    · intro hmem
      obtain ⟨htK', e', he', h5, h6⟩ := (h4 t).mp hmem
      exact ⟨htK', e', List.mem_append_left _ he', h5, h6⟩
    · rintro ⟨htK', e', he', h5, h6⟩
      rcases List.mem_append.mp he' with hdone | hsing
      · exact (h4 t).mpr ⟨htK', e', hdone, h5, h6⟩
      · have heq : e' = e := by simpa using hsing
        rw [heq] at h5 h6
        have hkK : k ∈ K := by
          rw [← hkeys]
          exact mem_keys_of_alGet _ _ _ hk
        have : e.source ∈ keys g1 := by
          rw [hkeys, h5]
          exact hkK
        obtain ⟨v, hv⟩ := (mem_keys_iff_alGet g1 e.source).mp this
        rw [hS1] at hv
        cases hv
  | some sn1 =>
    show DepGood2 K d (p ++ [e])
      (if e.target ∈ sn1.dependents then g1
       else alSet g1 e.source { sn1 with dependents := sn1.dependents ++ [e.target] })
    by_cases hc : e.target ∈ sn1.dependents
    · rw [if_pos hc]
      refine ⟨hkeys, ?_⟩
      intro k n hk
      obtain ⟨h1, h2, h3, h4⟩ := hval k n hk
      refine ⟨h1, h2, h3, ?_⟩
      intro t
      constructor
      · intro hmem
        obtain ⟨htK', e', he', h5, h6⟩ := (h4 t).mp hmem
        exact ⟨htK', e', List.mem_append_left _ he', h5, h6⟩
      · rintro ⟨htK', e', he', h5, h6⟩
        rcases List.mem_append.mp he' with hdone | hsing
        · exact (h4 t).mpr ⟨htK', e', hdone, h5, h6⟩
        · have heq : e' = e := by simpa using hsing
          rw [heq] at h5 h6
          by_cases hks : k = e.source
          · subst hks
            rw [hS1] at hk
            injection hk with hk
            rw [← hk, ← h6]
            exact hc
          · exact absurd h5 (fun hh => hks hh.symm)
    · rw [if_neg hc]
      have hsg : e.source ∈ keys g1 := mem_keys_of_alGet _ _ _ hS1
      refine ⟨by rw [keys_alSet_of_mem _ _ _ hsg]; exact hkeys, ?_⟩
      intro k n hk
      rw [alGet_alSet] at hk
      by_cases hks : k = e.source
      · rw [if_pos hks] at hk
        injection hk with hk
        obtain ⟨h1, h2, h3, h4⟩ := hval e.source sn1 hS1
        subst hks
        rw [← hk]
        refine ⟨h1, ?_, ?_, ?_⟩
        · show (sn1.dependents ++ [e.target]).Nodup
          rw [List.nodup_append]
          refine ⟨h2, List.nodup_singleton _, ?_⟩
          intro x hx hx'
          simp at hx'
          subst hx'
          exact hc hx
        · intro s
          show s ∈ sn1.dependencies ↔ _
          exact h3 s
        · intro t
          show t ∈ sn1.dependents ++ [e.target] ↔ _
          rw [List.mem_append]
          constructor
          · rintro (hmem | hmem)
            · obtain ⟨htK', e', he', h5, h6⟩ := (h4 t).mp hmem
              exact ⟨htK', e', List.mem_append_left _ he', h5, h6⟩
            · have hte : t = e.target := by simpa using hmem
              subst hte
              exact ⟨htK, e, List.mem_append_right _ (by simp), rfl, rfl⟩
          · rintro ⟨htK', e', he', h5, h6⟩
            rcases List.mem_append.mp he' with hdone | hsing
            · exact Or.inl ((h4 t).mpr ⟨htK', e', hdone, h5, h6⟩)
            · have heq : e' = e := by simpa using hsing
              rw [heq] at h5 h6
              rw [← h6]
              simp
      · rw [if_neg hks] at hk
        obtain ⟨h1, h2, h3, h4⟩ := hval k n hk
        refine ⟨h1, h2, h3, ?_⟩
        intro t
        constructor
        · intro hmem
          obtain ⟨htK', e', he', h5, h6⟩ := (h4 t).mp hmem
          exact ⟨htK', e', List.mem_append_left _ he', h5, h6⟩
        · rintro ⟨htK', e', he', h5, h6⟩
          rcases List.mem_append.mp he' with hdone | hsing
          · exact (h4 t).mpr ⟨htK', e', hdone, h5, h6⟩
          · have heq : e' = e := by simpa using hsing
            rw [heq] at h5 h6
            exact absurd h5 (fun hh => hks hh.symm)

theorem addEdgeDeps_depGood {K : List String} {done : List Edge} {g : ExecGraph}
    (e : Edge) (hg : DepGood2 K done done g) :
    DepGood2 K (done ++ [e]) (done ++ [e]) (addEdgeDeps g e) := by
  have hkeys := hg.1
  unfold addEdgeDeps
  cases hS : alGet g e.source with
  | none =>
    cases hT : alGet g e.target with
    | none =>
      refine depGood_extend_of_absent e hg (Or.inl ?_)
      intro hm
      rw [← hkeys] at hm
      obtain ⟨v, hv⟩ := (mem_keys_iff_alGet g e.source).mp hm
      rw [hS] at hv
      cases hv
    | some tn =>
      refine depGood_extend_of_absent e hg (Or.inl ?_)
      intro hm
      rw [← hkeys] at hm
      obtain ⟨v, hv⟩ := (mem_keys_iff_alGet g e.source).mp hm
      rw [hS] at hv
      cases hv
  | some sn =>
    cases hT : alGet g e.target with
    | none =>
      refine depGood_extend_of_absent e hg (Or.inr ?_)
      intro hm
      rw [← hkeys] at hm
      obtain ⟨v, hv⟩ := (mem_keys_iff_alGet g e.target).mp hm
      rw [hT] at hv
      cases hv
    | some tn =>
      have hsK : e.source ∈ K := by
        rw [← hkeys]
        exact mem_keys_of_alGet _ _ _ hS
      have htK : e.target ∈ K := by
        rw [← hkeys]
        exact mem_keys_of_alGet _ _ _ hT
      exact depGood_stage2 e (depGood_stage1 e tn hg hT hsK) htK

theorem edgeFold_depGood {K : List String} :
    ∀ (rest done : List Edge) (g : ExecGraph),
      DepGood2 K done done g →
      DepGood2 K (done ++ rest) (done ++ rest) (rest.foldl addEdgeDeps g) := by
  intro rest
  induction rest with
  | nil =>
    intro done g h
    simpa using h
  | cons e es ih =>
    intro done g h
    have h2 := ih (done ++ [e]) (addEdgeDeps g e) (addEdgeDeps_depGood e h)
    simpa [List.append_assoc] using h2

/-- C9 (confirmed): `buildExecutionGraph` produces exactly one `ExecutionNode`
per node id (no duplicate keys, and exactly the submitted ids), and each
node's dependency and dependent lists record every distinct present
`(source, target)` edge pair exactly once — without repetition even when the
same pair is submitted several times. -/
theorem buildExecutionGraph_dedup (nodes : List Node) (edges : List Edge) :
    (keys (buildExecutionGraph nodes edges)).Nodup ∧
    (∀ k, k ∈ keys (buildExecutionGraph nodes edges) ↔ k ∈ nodes.map Node.id) ∧
    (∀ k n, alGet (buildExecutionGraph nodes edges) k = some n →
      n.dependencies.Nodup ∧ n.dependents.Nodup ∧
      (∀ s, s ∈ n.dependencies ↔ s ∈ nodes.map Node.id ∧
          ∃ e ∈ edges, e.source = s ∧ e.target = k) ∧
      (∀ t, t ∈ n.dependents ↔ t ∈ nodes.map Node.id ∧
          ∃ e ∈ edges, e.source = k ∧ e.target = t)) := by
  have hbase := depGood_init nodes
  have hfold := edgeFold_depGood edges [] _ hbase
  rw [List.nil_append] at hfold
  obtain ⟨hkeys, hval⟩ := hfold
  have hK : ∀ k, k ∈ keys (nodes.foldl (fun g n => alSet g n.id (initExecNode n)) []) ↔
      k ∈ nodes.map Node.id := by
    intro k
    rw [nodeFold_mem_keys]
    simp [keys]
  refine ⟨?_, ?_, ?_⟩
  · show (keys (buildExecutionGraph nodes edges)).Nodup
    rw [show buildExecutionGraph nodes edges =
        edges.foldl addEdgeDeps (nodes.foldl (fun g n => alSet g n.id (initExecNode n)) [])
      from rfl, hkeys]
    exact nodeFold_nodup nodes [] List.nodup_nil
  · intro k
    rw [show buildExecutionGraph nodes edges =
        edges.foldl addEdgeDeps (nodes.foldl (fun g n => alSet g n.id (initExecNode n)) [])
      from rfl, hkeys]
    exact hK k
  · intro k n hk
    obtain ⟨h1, h2, h3, h4⟩ := hval k n hk
    refine ⟨h1, h2, ?_, ?_⟩
    · intro s
      rw [h3 s, hK s]
    · intro t
      rw [h4 t, hK t]

/-- C9 (witness): with the `(A, B)` edge submitted twice, `B`'s dependency
list is exactly `["A"]` — the pair is recorded once. -/
theorem buildExecutionGraph_dedup_witness :
    alGet (buildExecutionGraph dupNodes dupEdges) ("B") = some dupBNode ∧
    dupBNode.dependencies.Nodup ∧
    (∀ s, s ∈ dupBNode.dependencies ↔ s ∈ dupNodes.map Node.id ∧
      ∃ e ∈ dupEdges, e.source = s ∧ e.target = "B") :=
  ⟨rfl,
   ((buildExecutionGraph_dedup dupNodes dupEdges).2.2 ("B") dupBNode rfl).1,
   ((buildExecutionGraph_dedup dupNodes dupEdges).2.2 ("B") dupBNode rfl).2.2.1⟩

/-- C10 (witness): a completed source with output `""` wired into port `foo`
contributes nothing to the collected inputs. -/
theorem collectNodeInputs_skips_falsy_completed_witness :
    emptyOutSource.status = Status.completed ∧
    truthyO emptyOutSource.output = false ∧
    collectNodeInputs ("M") falsyGraphEx ([] ++ falsyEdgeEx :: []) none =
      collectNodeInputs ("M") falsyGraphEx ([] ++ []) none :=
  ⟨rfl, rfl,
   (collectNodeInputs_skips_falsy_completed ("M") falsyGraphEx none [] []
     falsyEdgeEx emptyOutSource rfl rfl rfl rfl).1⟩

/-!  DFS cycle-detection lemmas. -/

theorem mem_adjOf {edges : List Edge} {x y : String} :
    y ∈ adjOf edges x ↔ EStep edges x y := by
  unfold adjOf EStep
  simp only [List.mem_map, List.mem_filter, decide_eq_true_eq]
  constructor
  · rintro ⟨e, ⟨he, hs⟩, ht⟩
    exact ⟨e, he, hs, ht⟩
  · rintro ⟨e, he, hs, ht⟩
    exact ⟨e, ⟨he, hs⟩, ht⟩

theorem dfsVisit_zero (adj : String → List String) (u : String) (s : DfsSt) :
    dfsVisit adj 0 u s = (false, s) := rfl

theorem dfsVisit_succ (adj : String → List String) (fuel : Nat) (u : String)
    (s : DfsSt) :
    dfsVisit adj (fuel + 1) u s =
      (if ((adj u).foldl (dfsStep adj fuel) (false, pushSt u s)).1 then
        (adj u).foldl (dfsStep adj fuel) (false, pushSt u s)
      else (false, popSt u ((adj u).foldl (dfsStep adj fuel) (false, pushSt u s)).2)) := rfl

theorem removeFirst_cons_self (u : String) (l : List String) :
    removeFirst (u :: l) u = l := by
  simp [removeFirst]

theorem dfsStep_of_true (adj : String → List String) (fuel : Nat) (s0 : DfsSt)
    (v : String) : dfsStep adj fuel (true, s0) v = (true, s0) := rfl

theorem dfsStep_of_false (adj : String → List String) (fuel : Nat) (s0 : DfsSt)
    (v : String) :
    dfsStep adj fuel (false, s0) v =
      (if v ∈ s0.visited then
        (if v ∈ s0.recStack then
          (true, ⟨s0.visited, s0.recStack, s0.cycle ++ [v]⟩)
        else (false, s0))
      else dfsVisit adj fuel v s0) := rfl

theorem dfsFold_false_restore (adj : String → List String) (fuel : Nat)
    (IH : ∀ u s s', dfsVisit adj fuel u s = (false, s') →
      s'.recStack = s.recStack ∧ s'.cycle = s.cycle ∧ s.visited ⊆ s'.visited) :
    ∀ (l : List String) (acc : Bool × DfsSt) (st : DfsSt),
      l.foldl (dfsStep adj fuel) acc = (false, st) →
      acc.1 = false ∧ st.recStack = acc.2.recStack ∧ st.cycle = acc.2.cycle ∧
        acc.2.visited ⊆ st.visited := by
  intro l
  induction l with
  | nil =>
    intro acc st h
    rw [List.foldl_nil] at h
    subst h
    exact ⟨rfl, rfl, rfl, fun x hx => hx⟩
  | cons v vs ihl =>
    intro acc st h
    rw [List.foldl_cons] at h
    obtain ⟨hacc, hrec, hcyc, hvis⟩ := ihl (dfsStep adj fuel acc v) st h
    obtain ⟨b, s0⟩ := acc
    cases b with
    | true =>
      rw [dfsStep_of_true] at hacc
      exact Bool.noConfusion hacc
    | false =>
      by_cases hv : v ∈ s0.visited
      · by_cases hvr : v ∈ s0.recStack
        · rw [dfsStep_of_false, if_pos hv, if_pos hvr] at hacc
          exact Bool.noConfusion hacc
        · rw [dfsStep_of_false, if_pos hv, if_neg hvr] at hrec hcyc hvis
          exact ⟨rfl, hrec, hcyc, hvis⟩
      · rw [dfsStep_of_false, if_neg hv] at hacc hrec hcyc hvis
        cases hdv : dfsVisit adj fuel v s0 with
        | mk b2 s2 =>
          rw [hdv] at hacc hrec hcyc hvis
          cases b2 with
          | true => exact Bool.noConfusion hacc
          | false =>
            obtain ⟨h1, h2, h3⟩ := IH v s0 s2 hdv
            refine ⟨rfl, ?_, ?_, h3.trans hvis⟩
            · rw [hrec, h1]
            · rw [hcyc, h2]

theorem dfs_false_restore (adj : String → List String) :
    ∀ (fuel : Nat) (u : String) (s s' : DfsSt),
      dfsVisit adj fuel u s = (false, s') →
      s'.recStack = s.recStack ∧ s'.cycle = s.cycle ∧ s.visited ⊆ s'.visited := by
  intro fuel
  induction fuel with
  | zero =>
    intro u s s' h
    rw [dfsVisit_zero] at h
    injection h with h1 h2
    subst h2
    exact ⟨rfl, rfl, fun x hx => hx⟩
  | succ fuel ih =>
    intro u s s' h
    rw [dfsVisit_succ] at h
    cases hr : (adj u).foldl (dfsStep adj fuel) (false, pushSt u s) with
    | mk b st0 =>
      rw [hr] at h
      cases b with
      | true =>
        injection h with h1 h2
        exact Bool.noConfusion h1
      | false =>
        simp only [Bool.false_eq_true, if_false] at h
        injection h with h1 h2
        obtain ⟨hacc, hrec, hcyc, hvis⟩ := dfsFold_false_restore adj fuel ih _ _ st0 hr
        subst h2
        refine ⟨?_, ?_, ?_⟩
        · show removeFirst st0.recStack u = s.recStack
          rw [hrec]
          show removeFirst (u :: s.recStack) u = s.recStack
          exact removeFirst_cons_self u s.recStack
        · show st0.cycle.dropLast = s.cycle
          rw [hcyc]
          show (s.cycle ++ [u]).dropLast = s.cycle
          exact List.dropLast_concat
        · intro x hx
          exact hvis (by exact List.mem_cons_of_mem u hx)

theorem chain'_concat_of {edges : List Edge} {l : List String} {u : String}
    (hch : l.Chain' (EStep edges))
    (hend : l = [] ∨ ∃ z, l.getLast? = some z ∧ EStep edges z u) :
    (l ++ [u]).Chain' (EStep edges) := by
  rw [List.chain'_append]
  refine ⟨hch, List.chain'_singleton u, ?_⟩
  intro x hx y hy
  have hyu : y = u := by
    have : ([u] : List String).head? = some u := rfl
    rw [this] at hy
    exact (Option.mem_some_iff.mp hy).symm
  subst hyu
  rcases hend with h | ⟨z, hz, hzu⟩
  · rw [h] at hx
    simp at hx
  · rw [hz] at hx
    have hxz : x = z := (Option.mem_some_iff.mp hx).symm
    subst hxz
    exact hzu

theorem dfsFold_sound (adj : String → List String) (edges : List Edge) (fuel : Nat)
    (IHs : ∀ u s st, InvCyc edges s → cycEnd edges s u →
      dfsVisit adj fuel u s = (true, st) → cycleValidPath edges st.cycle)
    (u : String) (s : DfsSt)
    (hstack : ∀ x ∈ u :: s.recStack, x ∈ s.cycle ++ [u])
    (hch : (s.cycle ++ [u]).Chain' (EStep edges)) :
    ∀ (l : List String) (acc : Bool × DfsSt),
      (∀ v ∈ l, EStep edges u v) →
      (acc.1 = true → cycleValidPath edges acc.2.cycle) →
      (acc.1 = false → acc.2.recStack = u :: s.recStack ∧ acc.2.cycle = s.cycle ++ [u]) →
      ∀ st, l.foldl (dfsStep adj fuel) acc = (true, st) →
        cycleValidPath edges st.cycle := by
  intro l
  induction l with
  | nil =>
    intro acc hl hT hF st h
    rw [List.foldl_nil] at h
    subst h
    exact hT rfl
  | cons v vs ihl =>
    intro acc hl hT hF st h
    rw [List.foldl_cons] at h
    have hev : EStep edges u v := hl v (List.mem_cons_self v vs)
    refine ihl (dfsStep adj fuel acc v)
      (fun w hw => hl w (List.mem_cons_of_mem v hw)) ?_ ?_ st h
    · intro htrue
      obtain ⟨b, s0⟩ := acc
      cases b with
      | true => exact hT rfl
      | false =>
        obtain ⟨hrec, hcyc⟩ := hF rfl
        by_cases hv : v ∈ s0.visited
        · by_cases hvr : v ∈ s0.recStack
          · rw [dfsStep_of_false, if_pos hv, if_pos hvr]
            show cycleValidPath edges (s0.cycle ++ [v])
            rw [hcyc]
            refine ⟨?_, s.cycle ++ [u], v, rfl, ?_⟩
            · exact chain'_concat_of hch
                (Or.inr ⟨u, List.getLast?_concat _, hev⟩)
            · refine hstack v ?_
              rw [← hrec]
              exact hvr
          · rw [dfsStep_of_false, if_pos hv, if_neg hvr] at htrue
            exact Bool.noConfusion htrue
        · rw [dfsStep_of_false, if_neg hv] at htrue ⊢
          cases hdv : dfsVisit adj fuel v s0 with
          | mk b2 s2 =>
            rw [hdv] at htrue
            cases b2 with
            | false => exact Bool.noConfusion htrue
            | true =>
              refine IHs v s0 s2 ?_ ?_ hdv
              · constructor
                · intro x hx
                  rw [hrec] at hx
                  rw [hcyc]
                  exact hstack x hx
                · rw [hcyc]
                  exact hch
              · refine Or.inr ⟨u, ?_, hev⟩
                rw [hcyc]
                exact List.getLast?_concat _
    · intro hfalse
      obtain ⟨b, s0⟩ := acc
      cases b with
      | true =>
        rw [dfsStep_of_true] at hfalse
        exact Bool.noConfusion hfalse
      | false =>
        obtain ⟨hrec, hcyc⟩ := hF rfl
        by_cases hv : v ∈ s0.visited
        · by_cases hvr : v ∈ s0.recStack
          · rw [dfsStep_of_false, if_pos hv, if_pos hvr] at hfalse
            exact Bool.noConfusion hfalse
          · rw [dfsStep_of_false, if_pos hv, if_neg hvr]
            exact ⟨hrec, hcyc⟩
        · rw [dfsStep_of_false, if_neg hv] at hfalse ⊢
          cases hdv : dfsVisit adj fuel v s0 with
          | mk b2 s2 =>
            rw [hdv] at hfalse
            cases b2 with
            | true => exact Bool.noConfusion hfalse
            | false =>
              obtain ⟨h1, h2, _⟩ := dfs_false_restore adj fuel v s0 s2 hdv
              exact ⟨by rw [h1, hrec], by rw [h2, hcyc]⟩

theorem dfs_sound (adj : String → List String) (edges : List Edge)
    (hadj : ∀ x y, y ∈ adj x ↔ EStep edges x y) :
    ∀ (fuel : Nat) (u : String) (s st : DfsSt),
      InvCyc edges s → cycEnd edges s u →
      dfsVisit adj fuel u s = (true, st) → cycleValidPath edges st.cycle := by
  intro fuel
  induction fuel with
  | zero =>
    intro u s st _ _ h
    rw [dfsVisit_zero] at h
    injection h with h1 _
    exact Bool.noConfusion h1
  | succ fuel ih =>
    intro u s st hinv hend h
    rw [dfsVisit_succ] at h
    cases hr : (adj u).foldl (dfsStep adj fuel) (false, pushSt u s) with
    | mk b st0 =>
      rw [hr] at h
      cases b with
      | false =>
        simp only [Bool.false_eq_true, if_false] at h
        injection h with h1 _
        exact Bool.noConfusion h1
      | true =>
        simp only [if_true] at h
        injection h with _ h2
        subst h2
        have hstack : ∀ x ∈ u :: s.recStack, x ∈ s.cycle ++ [u] := by
          intro x hx
          rcases List.mem_cons.mp hx with rfl | hx'
          · exact List.mem_append_right _ (by simp)
          · exact List.mem_append_left _ (hinv.1 x hx')
        have hch : (s.cycle ++ [u]).Chain' (EStep edges) :=
          chain'_concat_of hinv.2 hend
        exact dfsFold_sound adj edges fuel ih u s hstack hch (adj u)
          (false, pushSt u s) (fun v hv => (hadj u v).mp hv)
          (fun hx => Bool.noConfusion hx) (fun _ => ⟨rfl, rfl⟩) st0 hr

theorem detectCyclesGo_cons (adj : String → List String) (fuel : Nat)
    (n : Node) (ns : List Node) (s : DfsSt) :
    detectCyclesGo adj fuel (n :: ns) s =
      (if n.id ∈ s.visited then detectCyclesGo adj fuel ns s
       else if (dfsVisit adj fuel n.id s).1 then
         some (dfsVisit adj fuel n.id s).2.cycle
       else detectCyclesGo adj fuel ns (dfsVisit adj fuel n.id s).2) := rfl

theorem detectGo_sound (adj : String → List String) (edges : List Edge)
    (hadj : ∀ x y, y ∈ adj x ↔ EStep edges x y) (fuel : Nat) :
    ∀ (ns : List Node) (s : DfsSt) (p : List String),
      InvCyc edges s → s.cycle = [] → s.recStack = [] →
      detectCyclesGo adj fuel ns s = some p → cycleValidPath edges p := by
  intro ns
  induction ns with
  | nil =>
    intro s p _ _ _ h
    exact Option.noConfusion h
  | cons n ns ih =>
    intro s p hinv hcyc hrec h
    rw [detectCyclesGo_cons] at h
    by_cases hv : n.id ∈ s.visited
    · rw [if_pos hv] at h
      exact ih s p hinv hcyc hrec h
    · rw [if_neg hv] at h
      cases hr : dfsVisit adj fuel n.id s with
      | mk b st =>
        rw [hr] at h
        cases b with
        | true =>
          simp only [if_true] at h
          have hp : st.cycle = p := Option.some.inj h
          rw [← hp]
          exact dfs_sound adj edges hadj fuel n.id s st hinv
            (Or.inl hcyc) hr
        | false =>
          simp only [Bool.false_eq_true, if_false] at h
          obtain ⟨hrec', hcyc', _⟩ := dfs_false_restore adj fuel n.id s st hr
          refine ih st p ?_ ?_ ?_ h
          · constructor
            · intro x hx
              rw [hrec', hrec] at hx
              cases hx
            · rw [hcyc', hcyc]
              exact List.chain'_nil
          · rw [hcyc', hcyc]
          · rw [hrec', hrec]

theorem detectCycles_sound {nodes : List Node} {edges : List Edge}
    {p : List String} (h : detectCycles nodes edges = some p) :
    cycleValidPath edges p :=
  detectGo_sound (adjOf edges) edges (fun _ _ => mem_adjOf) _ nodes
    ⟨[], [], []⟩ p
    ⟨fun x hx => absurd hx (List.not_mem_nil x), List.chain'_nil⟩ rfl rfl h

theorem chain_transGen {R : String → String → Prop} :
    ∀ (l : List String) (x y : String), List.Chain R x l →
      l.getLast? = some y → Relation.TransGen R x y := by
  intro l
  induction l with
  | nil =>
    intro x y _ hl
    exact Option.noConfusion hl
  | cons a t ih =>
    intro x y hch hl
    rcases hch with _ | ⟨hxa, hch'⟩
    cases t with
    | nil =>
      have hya : y = a := by
        have : (a :: ([] : List String)).getLast? = some a := rfl
        rw [this] at hl
        exact (Option.some.inj hl).symm
      subst hya
      exact Relation.TransGen.single hxa
    | cons b t' =>
      have hl' : (b :: t').getLast? = some y := by
        rw [← hl]
        rfl
      exact Relation.TransGen.head hxa (ih a y hch' hl')

theorem suffix_cycle {edges : List Edge} {p : List String}
    (h : cycleValidPath edges p) :
    ∃ i, 2 ≤ (p.drop i).length ∧ (p.drop i).head? = (p.drop i).getLast? ∧
      (p.drop i).Chain' (EStep edges) := by
  obtain ⟨hch, c, w, rfl, hw⟩ := h
  obtain ⟨s1, t1, rfl⟩ := List.append_of_mem hw
  have hsplit : (s1 ++ w :: t1) ++ [w] = s1 ++ ((w :: t1) ++ [w]) := by
    rw [List.append_assoc]
  have hdrop : ((s1 ++ w :: t1) ++ [w]).drop s1.length = (w :: t1) ++ [w] := by
    rw [hsplit]
    exact List.drop_left s1 _
  refine ⟨s1.length, ?_, ?_, ?_⟩
  · rw [hdrop]
    have hlen : ((w :: t1) ++ [w]).length = t1.length + 2 := by simp
    rw [hlen]
    omega
  · rw [hdrop]
    have h1 : ((w :: t1) ++ [w]).head? = some w := rfl
    have h2 : ((w :: t1) ++ [w]).getLast? = some w := List.getLast?_concat _
    rw [h1, h2]
  · rw [hdrop]
    rw [hsplit] at hch
    exact (List.chain'_append.mp hch).2.1

theorem cycleValidPath_hasCycle {edges : List Edge} {p : List String}
    (h : cycleValidPath edges p) :
    ∃ w, Relation.TransGen (EStep edges) w w := by
  obtain ⟨i, hlen, hhl, hch⟩ := suffix_cycle h
  cases hq : p.drop i with
  | nil =>
    rw [hq] at hlen
    simp at hlen
  | cons w t =>
    rw [hq] at hlen hhl hch
    have ht : t ≠ [] := by
      intro ht
      rw [ht] at hlen
      simp at hlen
    have hlast : t.getLast? = some w := by
      cases t with
      | nil => exact absurd rfl ht
      | cons b t' =>
        have hh : (w :: b :: t').head? = some w := rfl
        rw [hh] at hhl
        have : (w :: b :: t').getLast? = (b :: t').getLast? := rfl
        rw [this] at hhl
        exact hhl.symm
    have hchain : List.Chain (EStep edges) w t := hch
    exact ⟨w, chain_transGen t w w hchain hlast⟩

theorem acyclic_of_rank (edges : List Edge) (f : String → Nat)
    (h : ∀ e ∈ edges, f e.source < f e.target) :
    ¬ ∃ x, Relation.TransGen (EStep edges) x x := by
  rintro ⟨x, hx⟩
  have hmono : ∀ a b, Relation.TransGen (EStep edges) a b → f a < f b := by
    intro a b hab
    induction hab with
    | single h1 =>
      obtain ⟨e, he, rfl, rfl⟩ := h1
      exact h e he
    | tail _ h1 ih =>
      obtain ⟨e, he, rfl, rfl⟩ := h1
      exact lt_trans ih (h e he)
  exact lt_irrefl _ (hmono x x hx)

/-- C5 (confirmed): for every node/edge set whose edge relation has no
directed cycle — in particular for disconnected graphs — `detectCycles`
returns `null`.  (The DFS covers every component: it is restarted from every
unvisited node, and soundness of the recorded path shows a non-null result
would exhibit a cycle.) -/
theorem detectCycles_acyclic_none (nodes : List Node) (edges : List Edge)
    (hacyc : ¬ ∃ x, Relation.TransGen (EStep edges) x x) :
    detectCycles nodes edges = none := by
  cases h : detectCycles nodes edges with
  | none => rfl
  | some p =>
    exact absurd (cycleValidPath_hasCycle (detectCycles_sound h)) hacyc

/-- C5 (witness): a disconnected acyclic graph (`a → b` and `c → d`) is
accepted. -/
theorem detectCycles_acyclic_none_witness :
    detectCycles w5Nodes w5Edges = none :=
  detectCycles_acyclic_none w5Nodes w5Edges
    (acyclic_of_rank w5Edges rank5 (by decide))

theorem safe_of_succ_safe (edges : List Edge) (u : String)
    (h : ∀ v, EStep edges u v → Safe edges v) : Safe edges u := by
  intro y hy hcy
  rcases Relation.ReflTransGen.cases_head hy with rfl | ⟨v, huv, hvy⟩
  · obtain ⟨v, huv, hvu⟩ := (Relation.TransGen.head'_iff).mp hcy
    exact h v huv u hvu hcy
  · exact h v huv y hvy hcy

theorem dfsFold_safe (adj : String → List String) (edges : List Edge)
    (fuel : Nat) (U : Finset String)
    (IH : ∀ u s st, InvSafe edges s → u ∉ s.visited → u ∈ U →
      (U.filter (fun x => x ∉ s.visited)).card < fuel →
      dfsVisit adj fuel u s = (false, st) →
      InvSafe edges st ∧ u ∈ st.visited ∧ s.visited ⊆ st.visited)
    (hU : ∀ x y, EStep edges x y → y ∈ U)
    (u : String) (s : DfsSt) (hu : u ∈ U) (hunv : u ∉ s.visited)
    (hcard : (U.filter (fun x => x ∉ s.visited)).card < fuel + 1) :
    ∀ (l : List String) (acc : Bool × DfsSt) (stf : DfsSt),
      (∀ v ∈ l, EStep edges u v) →
      InvSafe edges acc.2 →
      acc.2.recStack = u :: s.recStack →
      (∀ x, x ∈ u :: s.visited → x ∈ acc.2.visited) →
      l.foldl (dfsStep adj fuel) acc = (false, stf) →
      InvSafe edges stf ∧ stf.recStack = u :: s.recStack ∧
        (∀ x, x ∈ u :: s.visited → x ∈ stf.visited) ∧
        acc.2.visited ⊆ stf.visited ∧ (∀ v ∈ l, Safe edges v) := by
  intro l
  induction l with
  | nil =>
    intro acc stf _ hinv hrec hvm h
    rw [List.foldl_nil] at h
    subst h
    exact ⟨hinv, hrec, hvm, fun x hx => hx, fun v hv => absurd hv (List.not_mem_nil v)⟩
  | cons v vs ihl =>
    intro acc stf hl hinv hrec hvm h
    rw [List.foldl_cons] at h
    have hstep_false : (dfsStep adj fuel acc v).1 = false :=
      (dfsFold_false_restore adj fuel (fun a b c => dfs_false_restore adj fuel a b c)
        vs _ stf h).1
    have hev : EStep edges u v := hl v (List.mem_cons_self v vs)
    obtain ⟨b, s0⟩ := acc
    cases b with
    | true =>
      rw [dfsStep_of_true] at hstep_false
      exact Bool.noConfusion hstep_false
    | false =>
      by_cases hv : v ∈ s0.visited
      · by_cases hvr : v ∈ s0.recStack
        · rw [dfsStep_of_false, if_pos hv, if_pos hvr] at hstep_false
          exact Bool.noConfusion hstep_false
        · rw [dfsStep_of_false, if_pos hv, if_neg hvr] at h
          have hsafev : Safe edges v := hinv.2 v hv hvr
          obtain ⟨c1, c2, c3, c4, c5⟩ := ihl (false, s0) stf
            (fun w hw => hl w (List.mem_cons_of_mem v hw)) hinv hrec hvm h
          refine ⟨c1, c2, c3, c4, ?_⟩
          intro w hw
          rcases List.mem_cons.mp hw with rfl | hw'
          · exact hsafev
          · exact c5 w hw'
      · rw [dfsStep_of_false, if_neg hv] at h hstep_false
        cases hdv : dfsVisit adj fuel v s0 with
        | mk b2 s2 =>
          rw [hdv] at h hstep_false
          cases b2 with
          | true => exact Bool.noConfusion hstep_false
          | false =>
            have hvU : v ∈ U := hU u v hev
            have hcard2 : (U.filter (fun x => x ∉ s0.visited)).card < fuel := by
              have hsub1 : U.filter (fun x => x ∉ s0.visited) ⊆
                  U.filter (fun x => x ∉ u :: s.visited) := by
                intro x hx
                rw [Finset.mem_filter] at hx ⊢
                exact ⟨hx.1, fun hm => hx.2 (hvm x hm)⟩
              have hsub2 : U.filter (fun x => x ∉ u :: s.visited) ⊂
                  U.filter (fun x => x ∉ s.visited) := by
                rw [Finset.ssubset_iff_of_subset]
                · refine ⟨u, ?_, ?_⟩
                  · rw [Finset.mem_filter]
                    exact ⟨hu, hunv⟩
                  · rw [Finset.mem_filter]
                    rintro ⟨-, hq⟩
                    exact hq (List.mem_cons_self u s.visited)
                · intro x hx
                  rw [Finset.mem_filter] at hx ⊢
                  exact ⟨hx.1, fun hm => hx.2 (List.mem_cons_of_mem u hm)⟩
              have g1 := Finset.card_le_card hsub1
              have g2 := Finset.card_lt_card hsub2
              omega
            obtain ⟨hinv2, hvin2, hmono2⟩ := IH v s0 s2 hinv hv hvU hcard2 hdv
            obtain ⟨hrec2, _, _⟩ := dfs_false_restore adj fuel v s0 s2 hdv
            have hsafev : Safe edges v := by
              refine hinv2.2 v hvin2 ?_
              rw [hrec2, hrec]
              intro hmem
              have := hinv.1 v
              rw [hrec] at this
              exact hv (hvm v (by
                rcases List.mem_cons.mp hmem with rfl | hmem'
                · exact List.mem_cons_self v s.visited
                · exact absurd (hinv.1 v (by rw [hrec]; exact hmem)) hv))
            obtain ⟨c1, c2, c3, c4, c5⟩ := ihl (false, s2) stf
              (fun w hw => hl w (List.mem_cons_of_mem v hw)) hinv2
              (by rw [hrec2, hrec]) (fun x hx => hmono2 (hvm x hx)) h
            refine ⟨c1, c2, c3, fun x hx => c4 (hmono2 hx), ?_⟩
            intro w hw
            rcases List.mem_cons.mp hw with rfl | hw'
            · exact hsafev
            · exact c5 w hw'

theorem dfs_safe (adj : String → List String) (edges : List Edge)
    (hadj : ∀ x y, y ∈ adj x ↔ EStep edges x y) (U : Finset String)
    (hU : ∀ x y, EStep edges x y → y ∈ U) :
    ∀ (fuel : Nat) (u : String) (s st : DfsSt),
      InvSafe edges s → u ∉ s.visited → u ∈ U →
      (U.filter (fun x => x ∉ s.visited)).card < fuel →
      dfsVisit adj fuel u s = (false, st) →
      InvSafe edges st ∧ u ∈ st.visited ∧ s.visited ⊆ st.visited := by
  intro fuel
  induction fuel with
  | zero =>
    intro u s st _ _ _ hcard _
    exact absurd hcard (Nat.not_lt_zero _)
  | succ fuel ih =>
    intro u s st hinv hunv hu hcard h
    rw [dfsVisit_succ] at h
    cases hr : (adj u).foldl (dfsStep adj fuel) (false, pushSt u s) with
    | mk b st0 =>
      rw [hr] at h
      cases b with
      | true =>
        simp only [if_true] at h
        injection h with h1 _
        exact Bool.noConfusion h1
      | false =>
        simp only [Bool.false_eq_true, if_false] at h
        injection h with _ h2
        have hinvp : InvSafe edges (pushSt u s) := by
          constructor
          · intro x hx
            rcases List.mem_cons.mp hx with rfl | hx'
            · exact List.mem_cons_self x s.visited
            · exact List.mem_cons_of_mem u (hinv.1 x hx')
          · intro x hx hxr
            have hxu : x ≠ u := by
              intro hh
              subst hh
              exact hxr (List.mem_cons_self x s.recStack)
            have hx' : x ∈ s.visited := by
              rcases List.mem_cons.mp hx with rfl | hx'
              · exact absurd rfl hxu
              · exact hx'
            have hxr' : x ∉ s.recStack := fun hh => hxr (List.mem_cons_of_mem u hh)
            exact hinv.2 x hx' hxr'
        obtain ⟨c1, c2, c3, c4, c5⟩ := dfsFold_safe adj edges fuel U ih hU u s hu
          hunv hcard (adj u) (false, pushSt u s) st0
          (fun v hv => (hadj u v).mp hv) hinvp rfl (fun x hx => hx) hr
        have hsafeu : Safe edges u :=
          safe_of_succ_safe edges u (fun v hv => c5 v ((hadj u v).mpr hv))
        subst h2
        refine ⟨?_, ?_, ?_⟩
        · constructor
          · intro x hx
            show x ∈ st0.visited
            have : x ∈ s.recStack := by
              have hres : removeFirst st0.recStack u = s.recStack := by
                rw [c2]
                exact removeFirst_cons_self u s.recStack
              rw [← hres]
              exact hx
            exact c3 x (List.mem_cons_of_mem u (hinv.1 x this))
          · intro x hx hxr
            show Safe edges x
            have hres : removeFirst st0.recStack u = s.recStack := by
              rw [c2]
              exact removeFirst_cons_self u s.recStack
            have hxr2 : x ∉ s.recStack := by
              rw [← hres]
              exact hxr
            by_cases hxu : x = u
            · subst hxu
              exact hsafeu
            · refine c1.2 x hx ?_
              rw [c2]
              intro hmem
              rcases List.mem_cons.mp hmem with hh | hh
              · exact hxu hh
              · exact hxr2 hh
        · exact c3 u (List.mem_cons_self u s.visited)
        · intro x hx
          exact c3 x (List.mem_cons_of_mem u hx)

theorem detectGo_safe (adj : String → List String) (edges : List Edge)
    (hadj : ∀ x y, y ∈ adj x ↔ EStep edges x y) (U : Finset String)
    (hU : ∀ x y, EStep edges x y → y ∈ U) (fuel : Nat) :
    ∀ (ns : List Node) (s : DfsSt),
      InvSafe edges s → s.recStack = [] →
      (U.filter (fun x => x ∉ s.visited)).card < fuel →
      (∀ n ∈ ns, n.id ∈ U) →
      detectCyclesGo adj fuel ns s = none →
      ∀ n ∈ ns, Safe edges n.id := by
  intro ns
  induction ns with
  | nil =>
    intro s _ _ _ _ _ n hn
    exact absurd hn (List.not_mem_nil n)
  | cons n ns ih =>
    intro s hinv hrec hcard hids h
    rw [detectCyclesGo_cons] at h
    by_cases hv : n.id ∈ s.visited
    · rw [if_pos hv] at h
      intro m hm
      rcases List.mem_cons.mp hm with rfl | hm'
      · refine hinv.2 m.id hv ?_
        rw [hrec]
        exact List.not_mem_nil m.id
      · exact ih s hinv hrec hcard (fun q hq => hids q (List.mem_cons_of_mem n hq))
          h m hm'
    · rw [if_neg hv] at h
      cases hr : dfsVisit adj fuel n.id s with
      | mk b st =>
        rw [hr] at h
        cases b with
        | true => simp at h
        | false =>
          simp only [Bool.false_eq_true, if_false] at h
          obtain ⟨hinv2, hin2, hmono2⟩ := dfs_safe adj edges hadj U hU fuel n.id s
            st hinv hv (hids n (List.mem_cons_self n ns)) hcard hr
          obtain ⟨hrec2, _, _⟩ := dfs_false_restore adj fuel n.id s st hr
          have hcard2 : (U.filter (fun x => x ∉ st.visited)).card < fuel := by
            have hsub : U.filter (fun x => x ∉ st.visited) ⊆
                U.filter (fun x => x ∉ s.visited) := by
              intro x hx
              rw [Finset.mem_filter] at hx ⊢
              exact ⟨hx.1, fun hm => hx.2 (hmono2 hm)⟩
            have := Finset.card_le_card hsub
            omega
          intro m hm
          rcases List.mem_cons.mp hm with rfl | hm'
          · refine hinv2.2 m.id hin2 ?_
            rw [hrec2, hrec]
            exact List.not_mem_nil m.id
          · exact ih st hinv2 (by rw [hrec2, hrec]) hcard2
              (fun q hq => hids q (List.mem_cons_of_mem n hq)) h m hm'

/-- C3 (amended): for every node/edge set containing a directed cycle of
length at least 2 among the nodes, `detectCycles` returns a non-null path;
every pair of consecutive elements of the reported path is connected by a
real edge, and its final element occurs earlier in the path, so the suffix of
the path from that occurrence is itself a valid cycle.  (The reported path's
FIRST element need not equal its last: the path starts at the DFS root, see
the counterexample.) -/
theorem detectCycles_finds_cycle (nodes : List Node) (edges : List Edge)
    (c : List String) (hlen : 3 ≤ c.length) (hhl : c.head? = c.getLast?)
    (hch : c.Chain' (EStep edges)) (hmem : ∀ x ∈ c, x ∈ nodes.map Node.id) :
    ∃ p, detectCycles nodes edges = some p ∧ p.Chain' (EStep edges) ∧
      (∃ c0 w, p = c0 ++ [w] ∧ w ∈ c0) ∧
      (∃ i, 2 ≤ (p.drop i).length ∧ (p.drop i).head? = (p.drop i).getLast? ∧
        (p.drop i).Chain' (EStep edges)) := by
  cases h : detectCycles nodes edges with
  | some p =>
    have hs := detectCycles_sound h
    exact ⟨p, rfl, hs.1, hs.2, suffix_cycle hs⟩
  | none =>
    exfalso
    cases c with
    | nil => simp at hlen
    | cons x t =>
      have hx : x ∈ nodes.map Node.id := hmem x (List.mem_cons_self x t)
      have ht : t ≠ [] := by
        intro hh
        rw [hh] at hlen
        simp at hlen
      have hlast : t.getLast? = some x := by
        have h1 : (x :: t).head? = some x := rfl
        rw [h1] at hhl
        have h2 : (x :: t).getLast? = t.getLast? := by
          cases t with
          | nil => exact absurd rfl ht
          | cons b t' => rfl
        rw [h2] at hhl
        exact hhl.symm
      have htrans : Relation.TransGen (EStep edges) x x :=
        chain_transGen t x x hch hlast
      have hU : ∀ a b, EStep edges a b →
          b ∈ (nodes.map Node.id).toFinset ∪ (edges.map Edge.target).toFinset := by
        rintro a b ⟨e, he, rfl, rfl⟩
        exact Finset.mem_union_right _ (List.mem_toFinset.mpr
          (List.mem_map_of_mem _ he))
      have hids : ∀ n ∈ nodes,
          n.id ∈ (nodes.map Node.id).toFinset ∪ (edges.map Edge.target).toFinset :=
        fun n hn => Finset.mem_union_left _ (List.mem_toFinset.mpr
          (List.mem_map_of_mem _ hn))
      have hcard : (((nodes.map Node.id).toFinset ∪
          (edges.map Edge.target).toFinset).filter
            (fun y => y ∉ (⟨[], [], []⟩ : DfsSt).visited)).card <
          nodes.length + edges.length + 1 := by
        have h1 : ((nodes.map Node.id).toFinset ∪
            (edges.map Edge.target).toFinset).filter
              (fun y => y ∉ (⟨[], [], []⟩ : DfsSt).visited) =
            (nodes.map Node.id).toFinset ∪ (edges.map Edge.target).toFinset := by
          apply Finset.filter_true_of_mem
          intro y _
          exact List.not_mem_nil y
        rw [h1]
        have h2 := Finset.card_union_le (nodes.map Node.id).toFinset
          (edges.map Edge.target).toFinset
        have h3 := List.toFinset_card_le (nodes.map Node.id)
        have h4 := List.toFinset_card_le (edges.map Edge.target)
        rw [List.length_map] at h3
        rw [List.length_map] at h4
        omega
      have hsafe := detectGo_safe (adjOf edges) edges (fun a b => mem_adjOf)
        ((nodes.map Node.id).toFinset ∪ (edges.map Edge.target).toFinset) hU
        (nodes.length + edges.length + 1) nodes ⟨[], [], []⟩
        ⟨fun y hy => absurd hy (List.not_mem_nil y),
         fun y hy _ => absurd hy (List.not_mem_nil y)⟩ rfl hcard hids h
      obtain ⟨m, hm, hmx⟩ := List.mem_map.mp hx
      have hsm := hsafe m hm
      rw [hmx] at hsm
      exact hsm x Relation.ReflTransGen.refl htrans

/-- C3 (counterexample): on nodes `a, b, c` with edges `a → b`, `b → c`,
`c → b`, the reported path is `a -> b -> c -> b`, whose first and last
elements differ — the path as a whole is not a cycle (only its suffix is). -/
theorem detectCycles_first_last_counterexample :
    detectCycles cexCycNodes cexCycEdges = some ["a", "b", "c", "b"] ∧
    (["a", "b", "c", "b"] : List String).head? ≠
      (["a", "b", "c", "b"] : List String).getLast? :=
  ⟨rfl, by decide⟩

/-!  Validation lemmas. -/

theorem checkEdgeRefs_cons (ids : List String) (e : Edge) (es : List Edge) :
    checkEdgeRefs ids (e :: es) =
      (if e.source ∉ ids then
        ⟨false, some ("Edge references non-existent source node: " ++ e.source)⟩
      else if e.target ∉ ids then
        ⟨false, some ("Edge references non-existent target node: " ++ e.target)⟩
      else checkEdgeRefs ids es) := rfl

theorem checkEdgeRefs_reject (ids : List String) :
    ∀ es : List Edge, (∃ e ∈ es, e.source ∉ ids ∨ e.target ∉ ids) →
      (checkEdgeRefs ids es).valid = false ∧
      ∃ e0 ∈ es, (e0.source ∉ ids ∨ e0.target ∉ ids) ∧
        (checkEdgeRefs ids es).error = some
          (if e0.source ∉ ids then
            "Edge references non-existent source node: " ++ e0.source
          else "Edge references non-existent target node: " ++ e0.target) := by
  intro es
  induction es with
  | nil =>
    rintro ⟨e, he, -⟩
    exact absurd he (List.not_mem_nil e)
  | cons e es ih =>
    rintro ⟨e1, he1, hd⟩
    rw [checkEdgeRefs_cons]
    by_cases hs : e.source ∈ ids
    · by_cases ht : e.target ∈ ids
      · rw [if_neg (not_not_intro hs), if_neg (not_not_intro ht)]
        have hd' : ∃ e2 ∈ es, e2.source ∉ ids ∨ e2.target ∉ ids := by
          rcases List.mem_cons.mp he1 with rfl | hmem
          · rcases hd with hd | hd
            · exact absurd hs hd
            · exact absurd ht hd
          · exact ⟨e1, hmem, hd⟩
        obtain ⟨hv, e0, he0, hd0, herr⟩ := ih hd'
        exact ⟨hv, e0, List.mem_cons_of_mem e he0, hd0, herr⟩
      · rw [if_neg (not_not_intro hs), if_pos ht]
        refine ⟨rfl, e, List.mem_cons_self e es, Or.inr ht, ?_⟩
        rw [if_neg (not_not_intro hs)]
    · rw [if_pos hs]
      refine ⟨rfl, e, List.mem_cons_self e es, Or.inl hs, ?_⟩
      rw [if_pos hs]

theorem any_id_eq (nodes : List Node) (x : String) :
    nodes.any (fun n => decide (n.id = x)) = true ↔ x ∈ nodes.map Node.id := by
  rw [List.any_eq_true]
  constructor
  · rintro ⟨n, hn, hid⟩
    rw [decide_eq_true_eq] at hid
    exact List.mem_map.mpr ⟨n, hn, hid⟩
  · intro h
    obtain ⟨n, hn, hid⟩ := List.mem_map.mp h
    exact ⟨n, hn, decide_eq_true hid⟩

theorem checkEdgeRefs2_cons (nodes : List Node) (e : Edge) (es : List Edge) :
    checkEdgeRefs2 nodes (e :: es) =
      (if !(nodes.any (fun n => decide (n.id = e.source))) ||
          !(nodes.any (fun n => decide (n.id = e.target))) then
        ⟨false, some ("Edge references non-existent node: " ++
          (if !(nodes.any (fun n => decide (n.id = e.source))) then e.source
           else e.target))⟩
      else checkEdgeRefs2 nodes es) := rfl

theorem checkEdgeRefs2_reject (nodes : List Node) :
    ∀ es : List Edge,
      (∃ e ∈ es, e.source ∉ nodes.map Node.id ∨ e.target ∉ nodes.map Node.id) →
      (checkEdgeRefs2 nodes es).valid = false ∧
      ∃ e0 ∈ es,
        (e0.source ∉ nodes.map Node.id ∨ e0.target ∉ nodes.map Node.id) ∧
        (checkEdgeRefs2 nodes es).error = some
          ("Edge references non-existent node: " ++
            (if e0.source ∉ nodes.map Node.id then e0.source else e0.target)) := by
  intro es
  induction es with
  | nil =>
    rintro ⟨e, he, -⟩
    exact absurd he (List.not_mem_nil e)
  | cons e es ih =>
    rintro ⟨e1, he1, hd⟩
    rw [checkEdgeRefs2_cons]
    by_cases hs : e.source ∈ nodes.map Node.id
    · have hsb : nodes.any (fun n => decide (n.id = e.source)) = true :=
        (any_id_eq nodes e.source).mpr hs
      by_cases ht : e.target ∈ nodes.map Node.id
      · have htb : nodes.any (fun n => decide (n.id = e.target)) = true :=
          (any_id_eq nodes e.target).mpr ht
        rw [hsb, htb]
        rw [if_neg (by rw [Bool.not_true, Bool.or_self]; exact Bool.false_ne_true)]
        have hd2 : ∃ e2 ∈ es,
            e2.source ∉ nodes.map Node.id ∨ e2.target ∉ nodes.map Node.id := by
          rcases List.mem_cons.mp he1 with rfl | hmem
          · rcases hd with hd | hd
            · exact absurd hs hd
            · exact absurd ht hd
          · exact ⟨e1, hmem, hd⟩
        obtain ⟨hv, e0, he0, hd0, herr⟩ := ih hd2
        exact ⟨hv, e0, List.mem_cons_of_mem e he0, hd0, herr⟩
      · have htb : nodes.any (fun n => decide (n.id = e.target)) = false := by
          rw [← Bool.not_eq_true]
          intro hh
          exact ht ((any_id_eq nodes e.target).mp hh)
        rw [hsb, htb]
        rw [if_pos (by rw [Bool.not_true, Bool.not_false, Bool.false_or])]
        refine ⟨rfl, e, List.mem_cons_self e es, Or.inr ht, ?_⟩
        rw [if_neg (by rw [Bool.not_true]; exact Bool.false_ne_true)]
        rw [if_neg (not_not_intro hs)]
    · have hsb : nodes.any (fun n => decide (n.id = e.source)) = false := by
        rw [← Bool.not_eq_true]
        intro hh
        exact hs ((any_id_eq nodes e.source).mp hh)
      rw [hsb]
      rw [if_pos (by rw [Bool.not_false, Bool.true_or])]
      refine ⟨rfl, e, List.mem_cons_self e es, Or.inl hs, ?_⟩
      rw [if_pos (by rw [Bool.not_false])]
      rw [if_pos hs]

/-- C8 (confirmed): any edge whose source or target id is absent from the
node set makes both validators reject the graph, wherever the edge sits in
the list; and when the edge relation has no directed cycle (so the cycle
check cannot preempt), the reported error names the offending id of an
offending edge, preferring the source id when both endpoints are missing. -/
theorem dangling_edge_rejected (nodes : List Node) (edges : List Edge)
    (e : Edge) (he : e ∈ edges)
    (hdang : e.source ∉ nodes.map Node.id ∨ e.target ∉ nodes.map Node.id) :
    (validateWorkflowDAG nodes edges).valid = false ∧
    (validateDAG nodes edges).valid = false ∧
    ((¬ ∃ x, Relation.TransGen (EStep edges) x x) →
      ∃ e0 ∈ edges,
        (e0.source ∉ nodes.map Node.id ∨ e0.target ∉ nodes.map Node.id) ∧
        (validateWorkflowDAG nodes edges).error = some
          (if e0.source ∉ nodes.map Node.id then
            "Edge references non-existent source node: " ++ e0.source
          else "Edge references non-existent target node: " ++ e0.target)) ∧
    ((¬ ∃ x, Relation.TransGen (EStep edges) x x) →
      ∃ e0 ∈ edges,
        (e0.source ∉ nodes.map Node.id ∨ e0.target ∉ nodes.map Node.id) ∧
        (validateDAG nodes edges).error = some
          ("Edge references non-existent node: " ++
            (if e0.source ∉ nodes.map Node.id then e0.source else e0.target))) := by
  have hex : ∃ e1 ∈ edges, e1.source ∉ nodes.map Node.id ∨
      e1.target ∉ nodes.map Node.id := ⟨e, he, hdang⟩
  have hnone : (¬ ∃ x, Relation.TransGen (EStep edges) x x) →
      detectCycles nodes edges = none := by
    intro hacyc
    cases h : detectCycles nodes edges with
    | none => rfl
    | some p =>
      exact absurd (cycleValidPath_hasCycle (detectCycles_sound h)) hacyc
  refine ⟨?_, ?_, ?_, ?_⟩
  · unfold validateWorkflowDAG
    cases h : detectCycles nodes edges with
    | some cyc => rfl
    | none => exact (checkEdgeRefs_reject (nodes.map Node.id) edges hex).1
  · unfold validateDAG
    cases h : detectCycles nodes edges with
    | some cyc => rfl
    | none => exact (checkEdgeRefs2_reject nodes edges hex).1
  · intro hacyc
    unfold validateWorkflowDAG
    rw [hnone hacyc]
    exact (checkEdgeRefs_reject (nodes.map Node.id) edges hex).2
  · intro hacyc
    unfold validateDAG
    rw [hnone hacyc]
    exact (checkEdgeRefs2_reject nodes edges hex).2

/-- C8 (witness): an edge `x → y` with both endpoints absent (node set `{n}`)
is rejected and the SOURCE id `x` is the one reported, by both validators. -/
theorem dangling_edge_rejected_witness :
    (validateWorkflowDAG w8Nodes w8Edges).valid = false ∧
    (validateWorkflowDAG w8Nodes w8Edges).error =
      some ("Edge references non-existent source node: x") ∧
    (validateDAG w8Nodes w8Edges).valid = false ∧
    (validateDAG w8Nodes w8Edges).error =
      some ("Edge references non-existent node: x") := by
  have h := dangling_edge_rejected w8Nodes w8Edges w8Edge
    (List.mem_cons_self w8Edge []) (Or.inl (by decide))
  refine ⟨h.1, ?_, h.2.1, ?_⟩
  · exact rfl
  · exact rfl

/-- C3 (witness): on the two-cycle `a → b → a`, `detectCycles` reports a
chain of real edges whose last element repeats, with a cycle suffix. -/
theorem detectCycles_finds_cycle_witness :
    ∃ p, detectCycles w3Nodes w3Edges = some p ∧ p.Chain' (EStep w3Edges) ∧
      (∃ c0 w, p = c0 ++ [w] ∧ w ∈ c0) ∧
      (∃ i, 2 ≤ (p.drop i).length ∧ (p.drop i).head? = (p.drop i).getLast? ∧
        (p.drop i).Chain' (EStep w3Edges)) :=
  detectCycles_finds_cycle w3Nodes w3Edges ["a", "b", "a"] (by decide)
    (by decide)
    (by
      show List.Chain (EStep w3Edges) ("a") [("b"), ("a")]
      exact List.Chain.cons (by decide) (List.Chain.cons (by decide) List.Chain.nil))
    (by decide)

/-!  Association-list and counting lemmas for the run loop. -/

theorem mem_of_alGet {α : Type} :
    ∀ {l : List (String × α)} {k : String} {v : α},
      alGet l k = some v → (k, v) ∈ l := by
  intro l
  induction l with
  | nil => intro k v h; exact Option.noConfusion h
  | cons p r ih =>
    intro k v h
    cases p with
    | mk a b =>
      have h' : (if a = k then some b else alGet r k) = some v := h
      by_cases hp : a = k
      · subst hp
        rw [if_pos rfl] at h'
        injection h' with h'
        subst h'
        exact List.mem_cons_self _ _
      · rw [if_neg hp] at h'
        exact List.mem_cons_of_mem _ (ih h')

theorem mem_keys_of_mem {α : Type} {l : List (String × α)} {p : String × α}
    (h : p ∈ l) : p.1 ∈ keys l :=
  List.mem_map_of_mem Prod.fst h

theorem alGet_of_mem_nodup {α : Type} :
    ∀ {l : List (String × α)} {k : String} {v : α},
      (keys l).Nodup → (k, v) ∈ l → alGet l k = some v := by
  intro l
  induction l with
  | nil => intro k v _ hm; cases hm
  | cons p r ih =>
    intro k v hnd hm
    cases p with
    | mk a b =>
      rw [keys_cons] at hnd
      rcases List.mem_cons.mp hm with h | h
      · injection h with h1 h2
        subst h1
        subst h2
        show (if k = k then some v else alGet r k) = some v
        rw [if_pos rfl]
      · have ha : a ≠ k := by
          intro hak
          have hkk : k ∈ keys r := mem_keys_of_mem h
          rw [← hak] at hkk
          exact (List.nodup_cons.mp hnd).1 hkk
        show (if a = k then some b else alGet r k) = some v
        rw [if_neg ha]
        exact ih (List.nodup_cons.mp hnd).2 h

theorem mem_alSet_cases {α : Type} :
    ∀ {l : List (String × α)} {k : String} {v : α} {p : String × α},
      p ∈ alSet l k v → p ∈ l ∨ p = (k, v) := by
  intro l
  induction l with
  | nil =>
    intro k v p h
    rcases List.mem_singleton.mp h with h
    exact Or.inr h
  | cons q r ih =>
    intro k v p h
    by_cases hq : q.1 = k
    · have h' : p ∈ (k, v) :: r := by
        have he : alSet (q :: r) k v = (k, v) :: r := by
          show (if q.1 = k then (k, v) :: r else q :: alSet r k v) = _
          rw [if_pos hq]
        rwa [he] at h
      rcases List.mem_cons.mp h' with h1 | h1
      · exact Or.inr h1
      · exact Or.inl (List.mem_cons_of_mem _ h1)
    · have h' : p ∈ q :: alSet r k v := by
        have he : alSet (q :: r) k v = q :: alSet r k v := by
          show (if q.1 = k then (k, v) :: r else q :: alSet r k v) = _
          rw [if_neg hq]
        rwa [he] at h
      rcases List.mem_cons.mp h' with h1 | h1
      · subst h1; exact Or.inl (List.mem_cons_self _ _)
      · rcases ih h1 with h2 | h2
        · exact Or.inl (List.mem_cons_of_mem _ h2)
        · exact Or.inr h2

theorem alSet_append_of_not_mem {α : Type} :
    ∀ {l : List (String × α)} {k : String} (v : α),
      k ∉ keys l → alSet l k v = l ++ [(k, v)] := by
  intro l
  induction l with
  | nil => intro k v _; rfl
  | cons q r ih =>
    intro k v h
    rw [keys_cons] at h
    have hq : q.1 ≠ k := fun he => h (by rw [he]; exact List.mem_cons_self _ _)
    show (if q.1 = k then (k, v) :: r else q :: alSet r k v) = _
    rw [if_neg hq, ih v (fun hk => h (List.mem_cons_of_mem _ hk))]
    rfl

theorem mem_keys_exists {α : Type} {l : List (String × α)} {k : String}
    (h : k ∈ keys l) : ∃ v, (k, v) ∈ l := by
  obtain ⟨p, hp, hpk⟩ := List.mem_map.mp h
  exact ⟨p.2, by rw [← hpk]; exact hp⟩

theorem addOnce_of_not_mem (l : List String) (a : String) (h : a ∉ l) :
    addOnce l a = l ++ [a] := by
  unfold addOnce
  rw [if_neg h]

theorem keys_length {α : Type} (l : List (String × α)) :
    (keys l).length = l.length :=
  List.length_map _ _

theorem length_lt_of_missing {c K : List String} {k : String}
    (hsub : ∀ x ∈ c, x ∈ K) (hnd : c.Nodup) (hk : k ∈ K) (hkc : k ∉ c) :
    c.length < K.length := by
  have hsubE : c.toFinset ⊆ K.toFinset.erase k := by
    intro x hx
    have hxc : x ∈ c := List.mem_toFinset.mp hx
    refine Finset.mem_erase.mpr ⟨?_, List.mem_toFinset.mpr (hsub x hxc)⟩
    intro hxk
    subst hxk
    exact hkc hxc
  calc c.length = c.toFinset.card := (List.toFinset_card_of_nodup hnd).symm
    _ ≤ (K.toFinset.erase k).card := Finset.card_le_card hsubE
    _ < K.toFinset.card := Finset.card_erase_lt_of_mem (List.mem_toFinset.mpr hk)
    _ ≤ K.length := K.toFinset_card_le

/-!  Characterisation of `processNode`. -/

theorem processNode_of_none (h : Handler) (edges : List Edge) (st : RunState)
    (r : String) (hget : alGet st.g r = none) :
    processNode h edges st r = st := by
  unfold processNode
  split
  · rfl
  · rename_i en hen
    rw [hget] at hen
    exact Option.noConfusion hen

theorem processNode_eq (h : Handler) (edges : List Edge) (st : RunState)
    (r : String) (en : ExecutionNode) (hget : alGet st.g r = some en) :
    processNode h edges st r =
      (if (handlerCallAt h edges st r en).success then
        { g := alSet (alSet st.g r { en with status := Status.running }) r
            { en with status := Status.completed,
                       output := (handlerCallAt h edges st r en).output }
          completed := addOnce st.completed r
          errors := st.errors
          results := alSet st.results r (handlerCallAt h edges st r en).output }
      else
        { g := alSet (alSet st.g r { en with status := Status.running }) r
            { en with status := Status.failed,
                       error := (handlerCallAt h edges st r en).error }
          completed := addOnce st.completed r
          errors := alSet st.errors r
            ((handlerCallAt h edges st r en).error.getD ("Unknown error"))
          results := st.results }) := by
  unfold processNode
  split
  · rename_i hnone
    rw [hget] at hnone
    exact Option.noConfusion hnone
  · rename_i en' hen'
    rw [hget] at hen'
    injection hen' with hen'
    subst hen'
    rfl

theorem processNode_g_self_pos (h : Handler) (edges : List Edge) (st : RunState)
    (r : String) (en : ExecutionNode) (hget : alGet st.g r = some en)
    (hres : (handlerCallAt h edges st r en).success = true) :
    alGet (processNode h edges st r).g r =
      some { en with status := Status.completed,
                     output := (handlerCallAt h edges st r en).output } := by
  rw [processNode_eq h edges st r en hget, if_pos hres]
  show alGet (alSet (alSet st.g r { en with status := Status.running }) r
    { en with status := Status.completed,
              output := (handlerCallAt h edges st r en).output }) r = _
  exact alGet_alSet_self _ _ _

theorem processNode_g_self_neg (h : Handler) (edges : List Edge) (st : RunState)
    (r : String) (en : ExecutionNode) (hget : alGet st.g r = some en)
    (hres : ¬ (handlerCallAt h edges st r en).success = true) :
    alGet (processNode h edges st r).g r =
      some { en with status := Status.failed,
                     error := (handlerCallAt h edges st r en).error } := by
  rw [processNode_eq h edges st r en hget, if_neg hres]
  show alGet (alSet (alSet st.g r { en with status := Status.running }) r
    { en with status := Status.failed,
              error := (handlerCallAt h edges st r en).error }) r = _
  exact alGet_alSet_self _ _ _

theorem processNode_g_other (h : Handler) (edges : List Edge) (st : RunState)
    (r q : String) (hq : q ≠ r) :
    alGet (processNode h edges st r).g q = alGet st.g q := by
  cases hget : alGet st.g r with
  | none => rw [processNode_of_none h edges st r hget]
  | some en =>
    rw [processNode_eq h edges st r en hget]
    by_cases hres : (handlerCallAt h edges st r en).success = true
    · rw [if_pos hres]
      show alGet (alSet (alSet st.g r { en with status := Status.running }) r
        { en with status := Status.completed,
                  output := (handlerCallAt h edges st r en).output }) q = _
      rw [alGet_alSet_ne _ _ _ _ hq, alGet_alSet_ne _ _ _ _ hq]
    · rw [if_neg hres]
      show alGet (alSet (alSet st.g r { en with status := Status.running }) r
        { en with status := Status.failed,
                  error := (handlerCallAt h edges st r en).error }) q = _
      rw [alGet_alSet_ne _ _ _ _ hq, alGet_alSet_ne _ _ _ _ hq]

theorem processNode_completed (h : Handler) (edges : List Edge) (st : RunState)
    (r : String) (en : ExecutionNode) (hget : alGet st.g r = some en) :
    (processNode h edges st r).completed = addOnce st.completed r := by
  rw [processNode_eq h edges st r en hget]
  by_cases hres : (handlerCallAt h edges st r en).success = true
  · rw [if_pos hres]
  · rw [if_neg hres]

theorem processNode_errors_pos (h : Handler) (edges : List Edge) (st : RunState)
    (r : String) (en : ExecutionNode) (hget : alGet st.g r = some en)
    (hres : (handlerCallAt h edges st r en).success = true) :
    (processNode h edges st r).errors = st.errors := by
  rw [processNode_eq h edges st r en hget, if_pos hres]

theorem processNode_errors_neg (h : Handler) (edges : List Edge) (st : RunState)
    (r : String) (en : ExecutionNode) (hget : alGet st.g r = some en)
    (hres : ¬ (handlerCallAt h edges st r en).success = true) :
    (processNode h edges st r).errors =
      alSet st.errors r ((handlerCallAt h edges st r en).error.getD ("Unknown error")) := by
  rw [processNode_eq h edges st r en hget, if_neg hres]

theorem processNode_keys (h : Handler) (edges : List Edge) (st : RunState)
    (r : String) :
    keys (processNode h edges st r).g = keys st.g := by
  cases hget : alGet st.g r with
  | none => rw [processNode_of_none h edges st r hget]
  | some en =>
    have hr : r ∈ keys st.g := mem_keys_of_alGet _ _ _ hget
    have hr1 : r ∈ keys (alSet st.g r { en with status := Status.running }) :=
      (mem_keys_alSet _ _ _ _).mpr (Or.inr rfl)
    rw [processNode_eq h edges st r en hget]
    by_cases hres : (handlerCallAt h edges st r en).success = true
    · rw [if_pos hres]
      show keys (alSet (alSet st.g r { en with status := Status.running }) r
        { en with status := Status.completed,
                  output := (handlerCallAt h edges st r en).output }) = _
      rw [keys_alSet_of_mem _ _ _ hr1, keys_alSet_of_mem _ _ _ hr]
    · rw [if_neg hres]
      show keys (alSet (alSet st.g r { en with status := Status.running }) r
        { en with status := Status.failed,
                  error := (handlerCallAt h edges st r en).error }) = _
      rw [keys_alSet_of_mem _ _ _ hr1, keys_alSet_of_mem _ _ _ hr]

/-!  One dispatched node preserves the run-loop invariants. -/

theorem step_inv (h : Handler) (edges : List Edge) (K : List String) (st : RunState)
    (r : String) (en : ExecutionNode)
    (hinv : RunInv K st) (herr : ErrInv st)
    (hget : alGet st.g r = some en) (hpend : en.status = Status.pending) :
    RunInv K (processNode h edges st r) ∧ ErrInv (processNode h edges st r) ∧
      (processNode h edges st r).completed = st.completed ++ [r] := by
  obtain ⟨hkeys, hKnd, hcons, hcnd, hcsub, hciff⟩ := hinv
  obtain ⟨heiff, hemsg⟩ := herr
  have hrK : r ∈ K := by rw [← hkeys]; exact mem_keys_of_alGet _ _ _ hget
  have hnotc : r ∉ st.completed := by
    intro hc
    rcases (hciff r en hget).mp hc with h1 | h1 <;> rw [hpend] at h1 <;>
      exact Status.noConfusion h1
  have hcomp : (processNode h edges st r).completed = st.completed ++ [r] := by
    rw [processNode_completed h edges st r en hget, addOnce_of_not_mem _ _ hnotc]
  have hkeys' : keys (processNode h edges st r).g = K := by
    rw [processNode_keys, hkeys]
  have hnotfail : ¬ ∃ n, alGet st.g r = some n ∧ n.status = Status.failed := by
    rintro ⟨n, hn, hf⟩
    rw [hget] at hn
    injection hn with hn
    rw [← hn, hpend] at hf
    exact Status.noConfusion hf
  have hterm : ∃ n', alGet (processNode h edges st r).g r = some n' ∧
      n'.node = en.node ∧ (n'.status = Status.completed ∨ n'.status = Status.failed) := by
    by_cases hres : (handlerCallAt h edges st r en).success = true
    · exact ⟨_, processNode_g_self_pos h edges st r en hget hres, rfl, Or.inl rfl⟩
    · exact ⟨_, processNode_g_self_neg h edges st r en hget hres, rfl, Or.inr rfl⟩
  refine ⟨⟨hkeys', hKnd, ?_, ?_, ?_, ?_⟩, ?_, hcomp⟩
  · intro k n1 hk
    by_cases hkr : k = r
    · subst hkr
      obtain ⟨n', hs, hnode, -⟩ := hterm
      rw [hs] at hk
      injection hk with hk
      rw [← hk, hnode]
      exact hcons k en hget
    · rw [processNode_g_other h edges st r k hkr] at hk
      exact hcons k n1 hk
  · rw [hcomp, List.nodup_append]
    refine ⟨hcnd, List.nodup_singleton r, ?_⟩
    intro a ha hb
    rw [List.mem_singleton] at hb
    subst hb
    exact hnotc ha
  · intro x hx
    rw [hcomp] at hx
    rcases List.mem_append.mp hx with h1 | h1
    · exact hcsub x h1
    · rw [List.mem_singleton] at h1
      subst h1
      exact hrK
  · intro k n1 hk
    by_cases hkr : k = r
    · subst hkr
      obtain ⟨n', hs, -, hterm'⟩ := hterm
      rw [hs] at hk
      injection hk with hk
      constructor
      · intro _
        rw [← hk]
        exact hterm'
      · intro _
        rw [hcomp]
        exact List.mem_append.mpr (Or.inr (List.mem_singleton.mpr rfl))
    · rw [processNode_g_other h edges st r k hkr] at hk
      rw [hcomp]
      have hold := hciff k n1 hk
      constructor
      · intro hkm
        rcases List.mem_append.mp hkm with h1 | h1
        · exact hold.mp h1
        · rw [List.mem_singleton] at h1
          exact absurd h1 hkr
      · intro ht
        exact List.mem_append.mpr (Or.inl (hold.mpr ht))
  · by_cases hres : (handlerCallAt h edges st r en).success = true
    · have herr' : (processNode h edges st r).errors = st.errors :=
        processNode_errors_pos h edges st r en hget hres
      have hsp := processNode_g_self_pos h edges st r en hget hres
      refine ⟨?_, ?_⟩
      · intro k
        rw [herr']
        by_cases hkr : k = r
        · subst hkr
          constructor
          · intro hex
            exact (hnotfail ((heiff k).mp hex)).elim
          · rintro ⟨n1, hn1, hf⟩
            rw [hsp] at hn1
            injection hn1 with hn1
            rw [← hn1] at hf
            have hf' : Status.completed = Status.failed := hf
            exact Status.noConfusion hf'
        · rw [heiff k, processNode_g_other h edges st r k hkr]
      · intro p hp
        rw [herr'] at hp
        obtain ⟨n1, hn1, hf, hm⟩ := hemsg p hp
        have hpr : p.1 ≠ r := by
          intro hpr
          rw [hpr] at hn1
          exact hnotfail ⟨n1, hn1, hf⟩
        refine ⟨n1, ?_, hf, hm⟩
        rw [processNode_g_other h edges st r p.1 hpr]
        exact hn1
    · have hsp := processNode_g_self_neg h edges st r en hget hres
      have hkerr : r ∉ keys st.errors := by
        intro hk
        obtain ⟨m, hm⟩ := mem_keys_exists hk
        exact hnotfail ((heiff r).mp ⟨m, hm⟩)
      have herr' : (processNode h edges st r).errors =
          st.errors ++ [(r, (handlerCallAt h edges st r en).error.getD ("Unknown error"))] := by
        rw [processNode_errors_neg h edges st r en hget hres]
        exact alSet_append_of_not_mem _ hkerr
      refine ⟨?_, ?_⟩
      · intro k
        rw [herr']
        by_cases hkr : k = r
        · subst hkr
          constructor
          · intro _
            exact ⟨_, hsp, rfl⟩
          · intro _
            exact ⟨_, List.mem_append.mpr (Or.inr (List.mem_singleton.mpr rfl))⟩
        · constructor
          · rintro ⟨m, hm⟩
            rcases List.mem_append.mp hm with h1 | h1
            · obtain ⟨n1, hn1, hf⟩ := (heiff k).mp ⟨m, h1⟩
              refine ⟨n1, ?_, hf⟩
              rw [processNode_g_other h edges st r k hkr]
              exact hn1
            · rw [List.mem_singleton] at h1
              injection h1 with h1a h1b
              exact absurd h1a hkr
          · rintro ⟨n1, hn1, hf⟩
            rw [processNode_g_other h edges st r k hkr] at hn1
            obtain ⟨m, hm⟩ := (heiff k).mpr ⟨n1, hn1, hf⟩
            exact ⟨m, List.mem_append.mpr (Or.inl hm)⟩
      · intro p hp
        rw [herr'] at hp
        rcases List.mem_append.mp hp with h1 | h1
        · obtain ⟨n1, hn1, hf, hm⟩ := hemsg p h1
          have hpr : p.1 ≠ r := by
            intro hpr
            rw [hpr] at hn1
            exact hnotfail ⟨n1, hn1, hf⟩
          refine ⟨n1, ?_, hf, hm⟩
          rw [processNode_g_other h edges st r p.1 hpr]
          exact hn1
        · rw [List.mem_singleton] at h1
          subst h1
          refine ⟨_, hsp, rfl, ?_⟩
          cases hoe : (handlerCallAt h edges st r en).error with
          | some m => exact Or.inl rfl
          | none => exact Or.inr ⟨rfl, rfl⟩

/-!  The ready ids of a wave. -/

theorem mem_ready (g : ExecGraph) (p : String × ExecutionNode) :
    p ∈ getReadyNodes g ↔
      p ∈ g ∧ p.2.status = Status.pending ∧
        ∀ d ∈ p.2.dependencies,
          (alGet g d).map ExecutionNode.status = some Status.completed := by
  unfold getReadyNodes depCompleted
  simp [List.mem_filter, List.all_eq_true, and_assoc]

theorem readyIds_nodup (g : ExecGraph) (hnd : (keys g).Nodup)
    (hcons : ∀ k n, alGet g k = some n → n.node.id = k) :
    ((getReadyNodes g).map (fun p => p.2.node.id)).Nodup := by
  have hmap : (getReadyNodes g).map (fun p => p.2.node.id) =
      (getReadyNodes g).map Prod.fst := by
    apply List.map_congr_left
    intro p hp
    have hpg : p ∈ g := ((mem_ready g p).mp hp).1
    exact hcons p.1 p.2 (alGet_of_mem_nodup hnd hpg)
  rw [hmap]
  have hsub : List.Sublist (getReadyNodes g) g := List.filter_sublist _
  exact List.Nodup.sublist (hsub.map Prod.fst) hnd

theorem readyIds_props (g : ExecGraph) (hnd : (keys g).Nodup)
    (hcons : ∀ k n, alGet g k = some n → n.node.id = k) :
    ∀ r ∈ (getReadyNodes g).map (fun p => p.2.node.id),
      ∃ n, alGet g r = some n ∧ n.status = Status.pending ∧
        ∀ d ∈ n.dependencies,
          (alGet g d).map ExecutionNode.status = some Status.completed := by
  intro r hr
  obtain ⟨p, hp, hpr⟩ := List.mem_map.mp hr
  obtain ⟨hpg, hpend, hdeps⟩ := (mem_ready g p).mp hp
  have hpget : alGet g p.1 = some p.2 := alGet_of_mem_nodup hnd hpg
  have hid : p.2.node.id = p.1 := hcons p.1 p.2 hpget
  rw [← hpr, hid]
  exact ⟨p.2, hpget, hpend, hdeps⟩

theorem readyIds_pending (g : ExecGraph) (hnd : (keys g).Nodup)
    (hcons : ∀ k n, alGet g k = some n → n.node.id = k) :
    ∀ r ∈ (getReadyNodes g).map (fun p => p.2.node.id),
      ∃ n, alGet g r = some n ∧ n.status = Status.pending := by
  intro r hr
  obtain ⟨n, h1, h2, -⟩ := readyIds_props g hnd hcons r hr
  exact ⟨n, h1, h2⟩

theorem readyIds_ne_nil {g : ExecGraph}
    (hne : (getReadyNodes g).isEmpty = false) :
    (getReadyNodes g).map (fun p => p.2.node.id) ≠ [] := by
  intro hmap
  cases hready : getReadyNodes g with
  | nil => rw [hready] at hne; simp [List.isEmpty] at hne
  | cons a as => rw [hready] at hmap; simp at hmap

/-!  A whole wave preserves the invariants and completes every ready id. -/

theorem wave_inv (h : Handler) (edges : List Edge) (K : List String) :
    ∀ (rs : List String) (st : RunState),
      RunInv K st → ErrInv st →
      (∀ r ∈ rs, ∃ n, alGet st.g r = some n ∧ n.status = Status.pending) →
      rs.Nodup →
      RunInv K (rs.foldl (processNode h edges) st) ∧
      ErrInv (rs.foldl (processNode h edges) st) ∧
      (rs.foldl (processNode h edges) st).completed.length =
        st.completed.length + rs.length ∧
      ∀ q, q ∉ rs →
        alGet (rs.foldl (processNode h edges) st).g q = alGet st.g q := by
  intro rs
  induction rs with
  | nil =>
    intro st hinv herr _ _
    refine ⟨hinv, herr, ?_, fun q _ => rfl⟩
    simp
  | cons r rs' ih =>
    intro st hinv herr hpend hnd
    obtain ⟨en, hget, hpen⟩ := hpend r (List.mem_cons_self _ _)
    obtain ⟨hinv', herr', hcomp'⟩ := step_inv h edges K st r en hinv herr hget hpen
    have hrs' : ∀ q ∈ rs', ∃ n, alGet (processNode h edges st r).g q = some n ∧
        n.status = Status.pending := by
      intro q hq
      have hqr : q ≠ r := by
        intro hqr
        subst hqr
        exact (List.nodup_cons.mp hnd).1 hq
      obtain ⟨n, hn, hp⟩ := hpend q (List.mem_cons_of_mem _ hq)
      exact ⟨n, by rw [processNode_g_other h edges st r q hqr]; exact hn, hp⟩
    obtain ⟨hinv2, herr2, hlen2, hoff2⟩ :=
      ih (processNode h edges st r) hinv' herr' hrs' (List.nodup_cons.mp hnd).2
    refine ⟨hinv2, herr2, ?_, ?_⟩
    · show (List.foldl (processNode h edges) (processNode h edges st r) rs').completed.length = _
      rw [hlen2, hcomp', List.length_append, List.length_cons]
      simp
      omega
    · intro q hq
      have hqr : q ≠ r := by
        intro hqr
        exact hq (by rw [hqr]; exact List.mem_cons_self _ _)
      have hq' : q ∉ rs' := fun hq2 => hq (List.mem_cons_of_mem _ hq2)
      show alGet (List.foldl (processNode h edges) (processNode h edges st r) rs').g q = _
      rw [hoff2 q hq', processNode_g_other h edges st r q hqr]

/-!  The wave loop. -/

theorem runLoop_succ (h : Handler) (edges : List Edge) (total fuel : Nat)
    (st : RunState) :
    runLoop h edges total (fuel + 1) st =
      (if st.completed.length < total then
        (if (getReadyNodes st.g).isEmpty then RunResult.err st deadlockMsg
         else runLoop h edges total fuel
           (((getReadyNodes st.g).map (fun p => p.2.node.id)).foldl
             (processNode h edges) st))
      else RunResult.ok st) := rfl

theorem runLoop_ok_inv (h : Handler) (edges : List Edge) (K : List String)
    (total : Nat) :
    ∀ (fuel : Nat) (st stf : RunState),
      RunInv K st → ErrInv st →
      runLoop h edges total fuel st = RunResult.ok stf →
      RunInv K stf ∧ ErrInv stf ∧ total ≤ stf.completed.length := by
  intro fuel
  induction fuel with
  | zero =>
    intro st stf _ _ hrun
    exact RunResult.noConfusion hrun
  | succ fuel ih =>
    intro st stf hinv herr hrun
    rw [runLoop_succ] at hrun
    by_cases hlt : st.completed.length < total
    · rw [if_pos hlt] at hrun
      by_cases hie : (getReadyNodes st.g).isEmpty = true
      · rw [if_pos hie] at hrun
        exact RunResult.noConfusion hrun
      · rw [if_neg hie] at hrun
        obtain ⟨hkeys, hKnd, hcons, h4, h5, h6⟩ := hinv
        have hndk : (keys st.g).Nodup := by rw [hkeys]; exact hKnd
        obtain ⟨hinv2, herr2, -, -⟩ :=
          wave_inv h edges K _ st ⟨hkeys, hKnd, hcons, h4, h5, h6⟩ herr
            (readyIds_pending st.g hndk hcons) (readyIds_nodup st.g hndk hcons)
        exact ih _ stf hinv2 herr2 hrun
    · rw [if_neg hlt] at hrun
      injection hrun with hrun
      subst hrun
      exact ⟨hinv, herr, Nat.le_of_not_lt hlt⟩

theorem runLoop_blocked (h : Handler) (edges : List Edge) (K : List String)
    (b : String) :
    ∀ (fuel : Nat) (st : RunState),
      RunInv K st → ErrInv st → BlockedAt b st →
      K.length - st.completed.length < fuel →
      ∃ stf, runLoop h edges K.length fuel st = RunResult.err stf deadlockMsg ∧
        BlockedAt b stf := by
  intro fuel
  induction fuel with
  | zero =>
    intro st _ _ _ hf
    exact absurd hf (Nat.not_lt_zero _)
  | succ fuel ih =>
    intro st hinv herr hbl hf
    obtain ⟨hkeys, hKnd, hcons, h4, h5, h6⟩ := hinv
    obtain ⟨n, hbget, hbpend, d, hd, hdnone⟩ := hbl
    have hbK : b ∈ K := by rw [← hkeys]; exact mem_keys_of_alGet _ _ _ hbget
    have hbnc : b ∉ st.completed := by
      intro hc
      rcases (h6 b n hbget).mp hc with h1 | h1 <;> rw [hbpend] at h1 <;>
        exact Status.noConfusion h1
    have hlt : st.completed.length < K.length :=
      length_lt_of_missing h5 h4 hbK hbnc
    rw [runLoop_succ, if_pos hlt]
    by_cases hie : (getReadyNodes st.g).isEmpty = true
    · rw [if_pos hie]
      exact ⟨st, rfl, n, hbget, hbpend, d, hd, hdnone⟩
    · rw [if_neg hie]
      have hndk : (keys st.g).Nodup := by rw [hkeys]; exact hKnd
      have hprops := readyIds_props st.g hndk hcons
      have hbnr : b ∉ (getReadyNodes st.g).map (fun p => p.2.node.id) := by
        intro hbr
        obtain ⟨n', hn', hp', hdeps'⟩ := hprops b hbr
        rw [hbget] at hn'
        injection hn' with hn'
        have hdc := hdeps' d (by rw [← hn']; exact hd)
        rw [hdnone] at hdc
        exact Option.noConfusion hdc
      obtain ⟨hinv2, herr2, hlen2, hoff2⟩ :=
        wave_inv h edges K _ st ⟨hkeys, hKnd, hcons, h4, h5, h6⟩ herr
          (readyIds_pending st.g hndk hcons) (readyIds_nodup st.g hndk hcons)
      have hbl2 : BlockedAt b
          (((getReadyNodes st.g).map (fun p => p.2.node.id)).foldl
            (processNode h edges) st) := by
        refine ⟨n, ?_, hbpend, d, hd, ?_⟩
        · rw [hoff2 b hbnr]
          exact hbget
        · have hdK : d ∉ K := by
            intro hdK
            rw [← hkeys] at hdK
            obtain ⟨v, hv⟩ := (mem_keys_iff_alGet _ _).mp hdK
            rw [hdnone] at hv
            exact Option.noConfusion hv
          apply alGet_eq_none_of_not_mem
          rw [hinv2.1]
          exact hdK
      have hne : (getReadyNodes st.g).map (fun p => p.2.node.id) ≠ [] :=
        readyIds_ne_nil (Bool.eq_false_iff.mpr hie)
      have hpos : 0 < ((getReadyNodes st.g).map (fun p => p.2.node.id)).length :=
        List.length_pos.mpr hne
      have hfuel2 : K.length -
          (((getReadyNodes st.g).map (fun p => p.2.node.id)).foldl
            (processNode h edges) st).completed.length < fuel := by
        omega
      exact ih _ hinv2 herr2 hbl2 hfuel2

/-!  The built execution graph starts the loop with the invariants. -/

theorem consistent_alSet (g : ExecGraph) (q : String) (n' v : ExecutionNode)
    (hget : alGet g q = some n')
    (hnode : v.node = n'.node) (hstat : v.status = n'.status)
    (h : ∀ k n, alGet g k = some n → n.node.id = k ∧ n.status = Status.pending) :
    ∀ k n, alGet (alSet g q v) k = some n →
      n.node.id = k ∧ n.status = Status.pending := by
  intro k n hk
  rw [alGet_alSet] at hk
  by_cases hkk : k = q
  · rw [if_pos hkk] at hk
    injection hk with hk
    obtain ⟨h1, h2⟩ := h q n' hget
    constructor
    · rw [← hk, hnode, hkk]
      exact h1
    · rw [← hk, hstat]
      exact h2
  · rw [if_neg hkk] at hk
    exact h k n hk

theorem nodeFold_consistent (l : List Node) :
    ∀ (acc : ExecGraph),
      (∀ k n, alGet acc k = some n → n.node.id = k ∧ n.status = Status.pending) →
      ∀ k n,
        alGet (l.foldl (fun g m => alSet g m.id (initExecNode m)) acc) k = some n →
        n.node.id = k ∧ n.status = Status.pending := by
  induction l with
  | nil => exact fun acc h => h
  | cons m ms ih =>
    intro acc h
    apply ih
    intro k n hk
    rw [alGet_alSet] at hk
    by_cases hkm : k = m.id
    · rw [if_pos hkm] at hk
      injection hk with hk
      rw [← hk]
      exact ⟨hkm.symm, rfl⟩
    · rw [if_neg hkm] at hk
      exact h k n hk

theorem addDependent_consistent (e : Edge) (g1 : ExecGraph)
    (h : ∀ k n, alGet g1 k = some n → n.node.id = k ∧ n.status = Status.pending) :
    ∀ k n, alGet (addDependent e g1) k = some n →
      n.node.id = k ∧ n.status = Status.pending := by
  cases hsn : alGet g1 e.source with
  | none =>
    have he : addDependent e g1 = g1 := by
      unfold addDependent
      rw [hsn]
    rw [he]
    exact h
  | some sn =>
    have he : addDependent e g1 =
        (if e.target ∈ sn.dependents then g1
         else alSet g1 e.source { sn with dependents := sn.dependents ++ [e.target] }) := by
      unfold addDependent
      rw [hsn]
    rw [he]
    by_cases hmem : e.target ∈ sn.dependents
    · rw [if_pos hmem]
      exact h
    · rw [if_neg hmem]
      exact consistent_alSet g1 e.source sn _ hsn rfl rfl h

theorem addEdgeDeps_consistent (e : Edge) (g : ExecGraph)
    (h : ∀ k n, alGet g k = some n → n.node.id = k ∧ n.status = Status.pending) :
    ∀ k n, alGet (addEdgeDeps g e) k = some n →
      n.node.id = k ∧ n.status = Status.pending := by
  cases hs : alGet g e.source with
  | none =>
    have he : addEdgeDeps g e = g := by
      unfold addEdgeDeps
      rw [hs]
    rw [he]
    exact h
  | some sn =>
    cases ht : alGet g e.target with
    | none =>
      have he : addEdgeDeps g e = g := by
        unfold addEdgeDeps
        rw [hs, ht]
      rw [he]
      exact h
    | some tn =>
      have he : addEdgeDeps g e =
          addDependent e (if e.source ∈ tn.dependencies then g
            else alSet g e.target
              { tn with dependencies := tn.dependencies ++ [e.source] }) := by
        unfold addEdgeDeps
        rw [hs, ht]
      rw [he]
      apply addDependent_consistent
      by_cases hmem : e.source ∈ tn.dependencies
      · rw [if_pos hmem]
        exact h
      · rw [if_neg hmem]
        exact consistent_alSet g e.target tn _ ht rfl rfl h

theorem edgeFold_consistent (es : List Edge) :
    ∀ (g : ExecGraph),
      (∀ k n, alGet g k = some n → n.node.id = k ∧ n.status = Status.pending) →
      ∀ k n, alGet (es.foldl addEdgeDeps g) k = some n →
        n.node.id = k ∧ n.status = Status.pending := by
  induction es with
  | nil => exact fun g h => h
  | cons e es ih => exact fun g h => ih _ (addEdgeDeps_consistent e g h)

theorem build_consistent (nodes : List Node) (edges : List Edge) :
    ∀ k n, alGet (buildExecutionGraph nodes edges) k = some n →
      n.node.id = k ∧ n.status = Status.pending := by
  apply edgeFold_consistent
  apply nodeFold_consistent
  intro k n hk
  exact Option.noConfusion hk

theorem buildKeys_eq (nodes : List Node) (edges : List Edge) :
    keys (buildExecutionGraph nodes edges) =
      keys (nodes.foldl (fun g n => alSet g n.id (initExecNode n)) []) := by
  have hbase := depGood_init nodes
  have hfold := edgeFold_depGood edges [] _ hbase
  rw [List.nil_append] at hfold
  exact hfold.1

theorem buildKeys_nodup (nodes : List Node) (edges : List Edge) :
    (keys (buildExecutionGraph nodes edges)).Nodup := by
  rw [buildKeys_eq]
  exact nodeFold_nodup nodes [] List.nodup_nil

theorem buildKeys_mem (nodes : List Node) (edges : List Edge) (k : String) :
    k ∈ keys (buildExecutionGraph nodes edges) ↔ k ∈ nodes.map Node.id := by
  rw [buildKeys_eq, nodeFold_mem_keys]
  simp [keys]

theorem nodup_length_le {c K : List String} (hsub : ∀ x ∈ c, x ∈ K)
    (hc : c.Nodup) : c.length ≤ K.length := by
  calc c.length = c.toFinset.card := (List.toFinset_card_of_nodup hc).symm
    _ ≤ K.toFinset.card := Finset.card_le_card
        (fun x hx => List.mem_toFinset.mpr (hsub x (List.mem_toFinset.mp hx)))
    _ ≤ K.length := K.toFinset_card_le

theorem mem_of_le_length {c K : List String} (hsub : ∀ x ∈ c, x ∈ K)
    (hc : c.Nodup) (hK : K.Nodup) (hlen : K.length ≤ c.length) :
    ∀ k ∈ K, k ∈ c := by
  have hsubF : c.toFinset ⊆ K.toFinset :=
    fun x hx => List.mem_toFinset.mpr (hsub x (List.mem_toFinset.mp hx))
  have hcard : K.toFinset.card ≤ c.toFinset.card := by
    rw [List.toFinset_card_of_nodup hc, List.toFinset_card_of_nodup hK]
    exact hlen
  have heq := Finset.eq_of_subset_of_card_le hsubF hcard
  intro k hk
  have hkF : k ∈ K.toFinset := List.mem_toFinset.mpr hk
  rw [← heq] at hkF
  exact List.mem_toFinset.mp hkF

theorem initial_inv_of (g0 : ExecGraph) (hnd : (keys g0).Nodup)
    (hcons : ∀ k n, alGet g0 k = some n → n.node.id = k)
    (hpend : ∀ k n, alGet g0 k = some n → n.status = Status.pending) :
    RunInv (keys g0) ⟨g0, [], [], []⟩ ∧ ErrInv ⟨g0, [], [], []⟩ := by
  refine ⟨⟨rfl, hnd, hcons, List.nodup_nil, ?_, ?_⟩, ?_, ?_⟩
  · intro k hk
    cases hk
  · intro k n hk
    constructor
    · intro hc
      cases hc
    · intro ht
      have hp := hpend k n hk
      rcases ht with h1 | h1 <;> rw [hp] at h1 <;> exact Status.noConfusion h1
  · intro k
    constructor
    · rintro ⟨m, hm⟩
      cases hm
    · rintro ⟨n, hn, hf⟩
      have hp := hpend k n hn
      rw [hp] at hf
      exact Status.noConfusion hf
  · intro p hp
    cases hp

theorem initial_inv_build (nodes : List Node) (edges : List Edge) :
    RunInv (keys (buildExecutionGraph nodes edges))
      ⟨buildExecutionGraph nodes edges, [], [], []⟩ ∧
    ErrInv ⟨buildExecutionGraph nodes edges, [], [], []⟩ :=
  initial_inv_of (buildExecutionGraph nodes edges)
    (buildKeys_nodup nodes edges)
    (fun k n hk => (build_consistent nodes edges k n hk).1)
    (fun k n hk => (build_consistent nodes edges k n hk).2)

/-- C6 (confirmed): for every hand-constructed execution graph (bypassing
validation) in which some node is pending with a dependency that resolves to
no node of the graph, the scheduler's wave loop — run with the fuel
`executeWorkflow` provides — terminates by reporting the deadlock error
("Execution deadlock: no nodes ready but workflow incomplete") rather than
looping forever, and the blocked node is still pending and still blocked in
the reported state.  Termination holds because every non-deadlocked iteration
has a non-empty ready set and completes all of its nodes, so the `completed`
set strictly grows and `g0.length + 1` iterations always suffice. -/
theorem deadlock_on_missing_dep (h : Handler) (edges : List Edge)
    (g0 : ExecGraph) (b : String)
    (hnd : (keys g0).Nodup)
    (hcons : ∀ k n, alGet g0 k = some n → n.node.id = k)
    (hpend : ∀ k n, alGet g0 k = some n → n.status = Status.pending)
    (hbl : BlockedAt b ⟨g0, [], [], []⟩) :
    ∃ stf, runLoop h edges g0.length (g0.length + 1) ⟨g0, [], [], []⟩ =
        RunResult.err stf deadlockMsg ∧ BlockedAt b stf := by
  obtain ⟨hinv0, herr0⟩ := initial_inv_of g0 hnd hcons hpend
  have hkl : (keys g0).length = g0.length := keys_length g0
  rw [← hkl]
  have h0 : (⟨g0, [], [], []⟩ : RunState).completed.length = 0 := rfl
  exact runLoop_blocked h edges (keys g0) b ((keys g0).length + 1)
    ⟨g0, [], [], []⟩ hinv0 herr0 hbl (by omega)

/-- C6 (witness): the one-node graph whose node `A` depends on the
nonexistent id `ghost` deadlocks immediately, with `A` still pending. -/
theorem deadlock_on_missing_dep_witness :
    ∃ stf, runLoop failHandler [] ghostGraph.length (ghostGraph.length + 1)
        ⟨ghostGraph, [], [], []⟩ = RunResult.err stf deadlockMsg ∧
      BlockedAt ("A") stf :=
  deadlock_on_missing_dep failHandler [] ghostGraph ("A")
    (by decide)
    (fun k n hk => by
      have h2 : (if ("A" : String) = k then some ghostEN else none) = some n := hk
      by_cases hak : ("A" : String) = k
      · rw [if_pos hak] at h2
        injection h2 with h2
        rw [← h2]
        exact hak
      · rw [if_neg hak] at h2
        exact Option.noConfusion h2)
    (fun k n hk => by
      have h2 : (if ("A" : String) = k then some ghostEN else none) = some n := hk
      by_cases hak : ("A" : String) = k
      · rw [if_pos hak] at h2
        injection h2 with h2
        rw [← h2]
        rfl
      · rw [if_neg hak] at h2
        exact Option.noConfusion h2)
    ⟨ghostEN, rfl, rfl, "ghost", by decide, rfl⟩

/-- C7 (confirmed): whenever the wave loop returns normally, every node of
the built graph has reached a terminal status; the finalised run status is
"failed" iff at least one node failed and "completed" otherwise; the
aggregate error is absent iff no node failed, and otherwise it is exactly the
"; "-join of the recorded per-node error messages, whose entries are
precisely the failed nodes, each carrying that node's own error message (or
the "Unknown error" default when the handler supplied none). -/
theorem run_outcome_spec (h : Handler) (nodes : List Node) (edges : List Edge)
    (stf : RunState)
    (hok : executeWorkflow h nodes edges = RunResult.ok stf) :
    (∀ k n, alGet stf.g k = some n →
      n.status = Status.completed ∨ n.status = Status.failed) ∧
    ((finalizeRun stf).status = "failed" ↔
      ∃ k n, alGet stf.g k = some n ∧ n.status = Status.failed) ∧
    ((finalizeRun stf).status = "completed" ↔
      ¬ ∃ k n, alGet stf.g k = some n ∧ n.status = Status.failed) ∧
    ((finalizeRun stf).error = none ↔
      ¬ ∃ k n, alGet stf.g k = some n ∧ n.status = Status.failed) ∧
    (stf.errors ≠ [] → (finalizeRun stf).error =
      some (String.intercalate ("; ") (stf.errors.map Prod.snd))) ∧
    (∀ p ∈ stf.errors, ∃ n, alGet stf.g p.1 = some n ∧
      n.status = Status.failed ∧
      (n.error = some p.2 ∨ (n.error = none ∧ p.2 = "Unknown error"))) ∧
    (∀ k n, alGet stf.g k = some n → n.status = Status.failed →
      ∃ m, (k, m) ∈ stf.errors) := by
  obtain ⟨hinv0, herr0⟩ := initial_inv_build nodes edges
  obtain ⟨hinvf, herrf, hlef⟩ :=
    runLoop_ok_inv h edges (keys (buildExecutionGraph nodes edges)) nodes.length
      (nodes.length + 1) ⟨buildExecutionGraph nodes edges, [], [], []⟩ stf
      hinv0 herr0 hok
  obtain ⟨hkeysf, hKnd, hconsf, hcnd, hcsub, hciff⟩ := hinvf
  obtain ⟨heiff, hemsg⟩ := herrf
  have hKsub : ∀ x ∈ keys (buildExecutionGraph nodes edges),
      x ∈ nodes.map Node.id :=
    fun x hx => (buildKeys_mem nodes edges x).mp hx
  have hKlen : (keys (buildExecutionGraph nodes edges)).length ≤ nodes.length := by
    have hle := nodup_length_le hKsub (buildKeys_nodup nodes edges)
    rw [List.length_map] at hle
    exact hle
  have hcover : ∀ k ∈ keys (buildExecutionGraph nodes edges), k ∈ stf.completed :=
    mem_of_le_length hcsub hcnd hKnd (Nat.le_trans hKlen hlef)
  have hterm : ∀ k n, alGet stf.g k = some n →
      n.status = Status.completed ∨ n.status = Status.failed := by
    intro k n hk
    have hkK : k ∈ keys (buildExecutionGraph nodes edges) := by
      rw [← hkeysf]
      exact mem_keys_of_alGet _ _ _ hk
    exact (hciff k n hk).mp (hcover k hkK)
  have herrne : stf.errors ≠ [] ↔
      ∃ k n, alGet stf.g k = some n ∧ n.status = Status.failed := by
    constructor
    · intro hne
      cases herrs : stf.errors with
      | nil => exact absurd herrs hne
      | cons p ps =>
        obtain ⟨n, hn, hf, -⟩ :=
          hemsg p (by rw [herrs]; exact List.mem_cons_self _ _)
        exact ⟨p.1, n, hn, hf⟩
    · rintro ⟨k, n, hk, hf⟩
      obtain ⟨m, hm⟩ := (heiff k).mpr ⟨n, hk, hf⟩
      exact List.ne_nil_of_mem hm
  refine ⟨hterm, ?_, ?_, ?_, ?_, hemsg, ?_⟩
  · by_cases he : stf.errors = []
    · have hs : (finalizeRun stf).status = "completed" := by
        unfold finalizeRun
        rw [he, if_neg (by decide)]
      rw [hs]
      exact ⟨fun hst => absurd hst (by decide),
             fun hP => absurd he (herrne.mpr hP)⟩
    · have hs : (finalizeRun stf).status = "failed" := by
        unfold finalizeRun
        rw [if_pos (List.length_pos.mpr he)]
      rw [hs]
      exact ⟨fun _ => herrne.mp he, fun _ => rfl⟩
  · by_cases he : stf.errors = []
    · have hs : (finalizeRun stf).status = "completed" := by
        unfold finalizeRun
        rw [he, if_neg (by decide)]
      rw [hs]
      exact ⟨fun _ hP => absurd he (herrne.mpr hP), fun _ => rfl⟩
    · have hs : (finalizeRun stf).status = "failed" := by
        unfold finalizeRun
        rw [if_pos (List.length_pos.mpr he)]
      rw [hs]
      exact ⟨fun hst => absurd hst (by decide),
             fun hnP => absurd (herrne.mp he) hnP⟩
  · by_cases he : stf.errors = []
    · have hs : (finalizeRun stf).error = none := by
        unfold finalizeRun
        rw [he, if_neg (by decide)]
      rw [hs]
      exact ⟨fun _ hP => absurd he (herrne.mpr hP), fun _ => rfl⟩
    · have hs : (finalizeRun stf).error =
          some (String.intercalate ("; ") (stf.errors.map Prod.snd)) := by
        unfold finalizeRun
        rw [if_pos (List.length_pos.mpr he)]
      rw [hs]
      exact ⟨fun hsn => Option.noConfusion hsn,
             fun hnP => (hnP (herrne.mp he)).elim⟩
  · intro hne
    unfold finalizeRun
    rw [if_pos (List.length_pos.mpr hne)]
  · intro k n hk hf
    exact (heiff k).mpr ⟨n, hk, hf⟩

/-- C2 (amended): for the diamond `A → {B, C} → D`, whenever `B`'s handler
fails while `A`'s and `C`'s succeed, `A` and `C` still complete normally
(`A`'s recorded output is exactly its handler's output on its own inputs,
which mention nothing of `B`) and `B` is marked failed; but under the
`dag.ts` readiness policy a failed dependency does not count as resolved, so
`D` never becomes ready: the run terminates with the deadlock error and `D`
is left pending — it is neither skipped with a propagated error nor executed
with `B`'s contribution absent, and not every node reaches a terminal
status. -/
theorem diamond_failure_containment (h : Handler)
    (hA : ∀ t inp, (h ("A") t inp).success = true)
    (hB : ∀ t inp, (h ("B") t inp).success = false)
    (hC : ∀ t inp, (h ("C") t inp).success = true) :
    ∃ stf, executeWorkflow h diamondNodes diamondEdges =
        RunResult.err stf deadlockMsg ∧
      (alGet stf.g ("A")).map ExecutionNode.status = some Status.completed ∧
      (alGet stf.g ("A")).map ExecutionNode.output =
        some ((h ("A") ("text") ([(("content"), Value.str ("hi"))])).output) ∧
      (alGet stf.g ("B")).map ExecutionNode.status = some Status.failed ∧
      (alGet stf.g ("C")).map ExecutionNode.status = some Status.completed ∧
      (alGet stf.g ("D")).map ExecutionNode.status = some Status.pending ∧
      getReadyNodes stf.g = [] ∧
      stf.completed = ["A", "B", "C"] := by
  generalize hoA : (h ("A") ("text") ([(("content"), Value.str ("hi"))])).output = oA
  have e1 : processNode h diamondEdges
      ⟨buildExecutionGraph diamondNodes diamondEdges, [], [], []⟩ ("A") =
      dmdSt1 oA := by
    have hAs : (handlerCallAt h diamondEdges
        ⟨buildExecutionGraph diamondNodes diamondEdges, [], [], []⟩ ("A")
        enA).success = true := hA _ _
    rw [processNode_eq h diamondEdges
      ⟨buildExecutionGraph diamondNodes diamondEdges, [], [], []⟩ ("A") enA rfl,
      if_pos hAs, ← hoA]
    rfl
  have e2 : ∀ oA : Option Value,
      processNode h diamondEdges (dmdSt1 oA) ("B") =
      dmdSt2 oA ((handlerCallAt h diamondEdges (dmdSt1 oA) ("B") enB1).error) := by
    intro oA
    have hBs : (handlerCallAt h diamondEdges (dmdSt1 oA) ("B") enB1).success =
        false := hB _ _
    rw [processNode_eq h diamondEdges (dmdSt1 oA) ("B") enB1 rfl,
      if_neg (by rw [hBs]; exact Bool.false_ne_true)]
    rfl
  have e3 : ∀ (oA : Option Value) (eB : Option String),
      processNode h diamondEdges (dmdSt2 oA eB) ("C") =
      dmdSt3 oA
        ((handlerCallAt h diamondEdges (dmdSt2 oA eB) ("C") enC1).output) eB := by
    intro oA eB
    have hCs : (handlerCallAt h diamondEdges (dmdSt2 oA eB) ("C") enC1).success =
        true := hC _ _
    rw [processNode_eq h diamondEdges (dmdSt2 oA eB) ("C") enC1 rfl,
      if_pos hCs]
    rfl
  refine ⟨dmdSt3 oA
      ((handlerCallAt h diamondEdges
        (dmdSt2 oA ((handlerCallAt h diamondEdges (dmdSt1 oA) ("B") enB1).error))
        ("C") enC1).output)
      ((handlerCallAt h diamondEdges (dmdSt1 oA) ("B") enB1).error),
    ?_, rfl, rfl, rfl, rfl, rfl, rfl, rfl⟩
  have step1 : executeWorkflow h diamondNodes diamondEdges =
      runLoop h diamondEdges 4 4 (processNode h diamondEdges
        ⟨buildExecutionGraph diamondNodes diamondEdges, [], [], []⟩ ("A")) := rfl
  rw [step1, e1]
  have step2 : runLoop h diamondEdges 4 4 (dmdSt1 oA) =
      runLoop h diamondEdges 4 3 (processNode h diamondEdges
        (processNode h diamondEdges (dmdSt1 oA) ("B")) ("C")) := rfl
  rw [step2, e2, e3]
  rfl

/-- C2 (witness): the amended theorem applied to the concrete handler that
fails exactly node `B`. -/
theorem diamond_failure_containment_witness :
    ∃ stf, executeWorkflow diamondHandler diamondNodes diamondEdges =
        RunResult.err stf deadlockMsg ∧
      (alGet stf.g ("A")).map ExecutionNode.status = some Status.completed ∧
      (alGet stf.g ("A")).map ExecutionNode.output =
        some ((diamondHandler ("A") ("text")
          ([(("content"), Value.str ("hi"))])).output) ∧
      (alGet stf.g ("B")).map ExecutionNode.status = some Status.failed ∧
      (alGet stf.g ("C")).map ExecutionNode.status = some Status.completed ∧
      (alGet stf.g ("D")).map ExecutionNode.status = some Status.pending ∧
      getReadyNodes stf.g = [] ∧
      stf.completed = ["A", "B", "C"] :=
  diamond_failure_containment diamondHandler
    (fun _ _ => rfl) (fun _ _ => rfl) (fun _ _ => rfl)

/-- C2 (counterexample): with the concrete handler failing exactly `B`, the
diamond run ends in the deadlock error: `D` is still `pending` — it never
became ready, was not skipped, and was not executed — refuting "D still
becomes ready" and "the run still reaches a terminal per-node status for
every node". -/
theorem diamond_failure_counterexample :
    executeWorkflow diamondHandler diamondNodes diamondEdges =
      RunResult.err (dmdSt3 (some (Value.str ("ok"))) (some (Value.str ("ok")))
        (some ("boom"))) deadlockMsg ∧
    (alGet (dmdSt3 (some (Value.str ("ok"))) (some (Value.str ("ok")))
        (some ("boom"))).g ("D")).map ExecutionNode.status =
      some Status.pending ∧
    (dmdSt3 (some (Value.str ("ok"))) (some (Value.str ("ok")))
        (some ("boom"))).completed = ["A", "B", "C"] ∧
    getReadyNodes (dmdSt3 (some (Value.str ("ok"))) (some (Value.str ("ok")))
        (some ("boom"))).g = [] :=
  ⟨rfl, rfl, rfl, rfl⟩

/-- C7 (witness): a single node failing with message `boom` finalises to
status "failed" with aggregate error `boom`. -/
theorem run_outcome_spec_witness :
    executeWorkflow failHandler oneFailNodes [] = RunResult.ok oneFailFinal ∧
    (finalizeRun oneFailFinal).status = "failed" ∧
    (finalizeRun oneFailFinal).error = some ("boom") :=
  ⟨rfl,
   (run_outcome_spec failHandler oneFailNodes [] oneFailFinal rfl).2.1.mpr
     ⟨"A", ⟨⟨"A", "text", []⟩, [], [], Status.failed, [], none, some ("boom")⟩,
       rfl, rfl⟩,
   rfl⟩

end NodeNest
